import Mathlib

/-!
IPS patch codec (package `ips`, file `ips/patch.go`)

A shallow embedding of the decoder (`parseFile` / `ReadIps`), the encoder
(`writeIps`, `WriteIpsSlice`) and the patch model of `ips/patch.go`, followed by
theorems about them.

Modelling conventions

* A Go `byte` is a `Fin 256`; `uint16` and `uint32` values are natural numbers, reduced
  explicitly wherever the source converts or truncates.
* The input `io.Reader` is a finite in-memory byte stream (the `bytes.Reader` behind a
  `bufio.Reader` of the test and of `cmd/ipsapply`): a read delivers the bytes that are
  left, `io.ReadFull` reports `io.EOF` when no byte could be read and
  `io.ErrUnexpectedEOF` when some but not all could.
* The patch channel is the list of the patches sent on it, in order; the error channel
  is the optional error sent on it before it is closed.
* The output `io.Writer` is a sink that records every `Write` call and may fail.
-/

namespace Ips

/-- A Go `byte`. -/
abbrev Byte := Fin 256

/-- The conversion `byte(v)` of an unsigned integer: the low eight bits. -/
def toByte (n : Nat) : Byte := ⟨n % 256, Nat.mod_lt n (by decide)⟩

/-- Go `error` values that occur in the package. -/
inductive GoError
  | EOF
  | ErrUnexpectedEOF
  | other (msg : String)
  | errorf (msg : String)
  | wrap (msg : String) (inner : GoError)
  deriving DecidableEq, Repr

/-- The constant `eof_bytes = ('E' << 16) + ('O' << 8) + 'F'`. -/
def eof_bytes : Nat := (0x45 <<< 16) + (0x4F <<< 8) + 0x46

/-- The two implementations of the `Patch` interface: `bytepatch{values, location}` and
`rlepatch{location, length, value}`. -/
inductive Patch
  | bytepatch (values : List Byte) (location : Nat)
  | rlepatch (location : Nat) (length : Nat) (value : Byte)
  deriving DecidableEq, Repr

/-- `NewBytePatch(loc, vals)`. -/
def NewBytePatch (loc : Nat) (vals : List Byte) : Patch := Patch.bytepatch vals loc

/-- `NewRlePatch(loc, l, val)`. -/
def NewRlePatch (loc : Nat) (l : Nat) (val : Byte) : Patch := Patch.rlepatch loc l val

/-- The field `location` of either patch. -/
def Patch.location : Patch → Nat
  | Patch.bytepatch _ loc => loc
  | Patch.rlepatch loc _ _ => loc

/-! ## `encoding/binary`, big endian -/

/-- `binary.BigEndian.Uint16(b)` for `b = [b0, b1]`. -/
def Uint16 (b0 b1 : Byte) : Nat := b0.val * 256 + b1.val

/-- `binary.BigEndian.Uint32(b)` for `b = [b0, b1, b2, b3]`. -/
def Uint32 (b0 b1 b2 b3 : Byte) : Nat :=
  b0.val * 16777216 + b1.val * 65536 + b2.val * 256 + b3.val

/-- `binary.BigEndian.PutUint16(b, v)`: `b[0] = byte(v >> 8)`, `b[1] = byte(v)`. -/
def PutUint16 (v : Nat) : List Byte := [toByte (v / 256), toByte v]

/-- `binary.BigEndian.PutUint32(b, v)`: `byte(v >> 24)`, `byte(v >> 16)`, `byte(v >> 8)`,
`byte(v)`. -/
def PutUint32 (v : Nat) : List Byte :=
  [toByte (v / 16777216), toByte (v / 65536), toByte (v / 256), toByte v]

/-! ## The reader side -/

/-- `io.ReadFull(r, buf)` with `len(buf) = n` on a stream whose unread bytes are `ips`:
the bytes stored at the front of `buf`, the bytes left unread, and the error. -/
def ReadFull (ips : List Byte) (n : Nat) : List Byte × List Byte × Option GoError :=
  if n ≤ ips.length then (ips.take n, ips.drop n, none)
  else if ips = [] then ([], [], some GoError.EOF)
  else (ips, [], some GoError.ErrUnexpectedEOF)

/-- The scratch array `buff [4]byte` of `parseFile`. -/
structure Buff where
  b0 : Byte
  b1 : Byte
  b2 : Byte
  b3 : Byte
  deriving DecidableEq, Repr

/-- The variables shared by the closures of `parseFile`: the unread part of the stream
`ips`, the sticky `err` and the scratch array `buff`. -/
structure Reader where
  ips : List Byte
  err : Option GoError
  buff : Buff
  deriving DecidableEq, Repr

/-- Bytes read into `buff[:1]`. -/
def Buff.store1 (b : Buff) : List Byte → Buff
  | [] => b
  | x :: _ => { b with b0 := x }

/-- Bytes read into `buff[:2]`: as many leading slots are overwritten as bytes arrived. -/
def Buff.store2 (b : Buff) : List Byte → Buff
  | [] => b
  | [x] => { b with b0 := x }
  | x :: y :: _ => { b with b0 := x, b1 := y }

/-- Bytes read into `buff[1:]`. -/
def Buff.store3 (b : Buff) : List Byte → Buff
  | [] => b
  | [x] => { b with b1 := x }
  | [x, y] => { b with b1 := x, b2 := y }
  | x :: y :: z :: _ => { b with b1 := x, b2 := y, b3 := z }

/-- The closure `read1`: `if err == nil { _, err = ips.Read(buff[:1]) }; return buff[0]`. -/
def read1 (r : Reader) : Byte × Reader :=
  let r1 : Reader :=
    if r.err = none then
      match r.ips with
      | [] => { r with err := some GoError.EOF }
      | x :: rest => { ips := rest, err := none, buff := r.buff.store1 [x] }
    else r
  (r1.buff.b0, r1)

/-- The closure `read2`: `if err == nil { _, err = io.ReadFull(ips, buff[:2]) }` and then
`binary.BigEndian.Uint16(buff[:2])`. -/
def read2 (r : Reader) : Nat × Reader :=
  let r1 : Reader :=
    if r.err = none then
      { ips := (ReadFull r.ips 2).2.1, err := (ReadFull r.ips 2).2.2,
        buff := r.buff.store2 (ReadFull r.ips 2).1 }
    else r
  (Uint16 r1.buff.b0 r1.buff.b1, r1)

/-- The closure `read3`: `if err == nil { buff[0] = 0; _, err = io.ReadFull(ips, buff[1:]) }`
and then `binary.BigEndian.Uint32(buff[:])`. -/
def read3 (r : Reader) : Nat × Reader :=
  let r1 : Reader :=
    if r.err = none then
      { ips := (ReadFull r.ips 3).2.1, err := (ReadFull r.ips 3).2.2,
        buff := Buff.store3 { r.buff with b0 := 0 } (ReadFull r.ips 3).1 }
    else r
  (Uint32 r1.buff.b0 r1.buff.b1 r1.buff.b2 r1.buff.b3, r1)

/-- What `parseFile` has delivered when it returns: the patches sent on `out`, in order,
and the error sent on `echan` (`none` when the channel is closed empty). -/
structure Result where
  patches : List Patch
  err : Option GoError
  deriving DecidableEq, Repr

/-- One pass through the body of the `for` loop of `parseFile`, up to the `switch`:
the offset read, the patch sent on `out` (if any) and the variables afterwards. -/
def loopBody (r : Reader) : Nat × Option Patch × Reader :=
  let offs := (read3 r).1
  let r1 := (read3 r).2
  let plen := (read2 r1).1
  let r2 := (read2 r1).2
  if plen = 0 then
    let plen2 := (read2 r2).1
    let r3 := (read2 r2).2
    let val := (read1 r3).1
    let r4 := (read1 r3).2
    (offs, if r4.err = none then some (NewRlePatch offs plen2 val) else none, r4)
  else
    let rf := ReadFull r2.ips plen
    (offs, if rf.2.2 = none then some (NewBytePatch offs rf.1) else none,
      { ips := rf.2.1, err := rf.2.2, buff := r2.buff })

/-- `errs.Wrap("Error reading ips file:", err)`. -/
def wrapRead (e : GoError) : GoError := GoError.wrap "Error reading ips file:" e

/-- The `for` loop of `parseFile`, with a bound on the number of passes; `none` means
that the bound was reached. -/
def parseLoop : Nat → Reader → Option Result
  | 0, _ => none
  | fuel + 1, r =>
    let offs := (loopBody r).1
    let sent := (loopBody r).2.1
    let r1 := (loopBody r).2.2
    if offs = eof_bytes ∧ r1.err = some GoError.EOF then
      some { patches := sent.toList, err := none }
    else
      match r1.err with
      | some e => some { patches := sent.toList, err := some (wrapRead e) }
      | none =>
        match parseLoop fuel r1 with
        | none => none
        | some res => some { patches := sent.toList ++ res.patches, err := res.err }

/-- The magic `"PATCH"`. -/
def magic : List Byte := [0x50, 0x41, 0x54, 0x43, 0x48]

/-- The terminator `"EOF"`. -/
def eofMarker : List Byte := [0x45, 0x4F, 0x46]

/-- The slice `header := make([]byte, 5)` after `io.ReadFull(ips, header)`. -/
def readHeader (ips : List Byte) : List Byte :=
  (ReadFull ips 5).1 ++ List.replicate (5 - (ReadFull ips 5).1.length) 0

/-- `parseFile` (and so `ReadIps`, which only starts it): the patches sent on the
channel and the final error. Every pass of the loop that goes round again has read at
least one byte, so the number of passes is bounded by the length of the stream. -/
def parseFile (ips : List Byte) : Option Result :=
  if readHeader ips ≠ magic then
    some { patches := [], err := some (GoError.errorf "Not a valid IPS file!") }
  else
    parseLoop (ips.length + 1)
      { ips := (ReadFull ips 5).2.1, err := (ReadFull ips 5).2.2, buff := ⟨0, 0, 0, 0⟩ }

/-! ## The writer side -/

/-- An `io.Writer`: the buffers handed to `Write` so far, oldest first, and the behaviour
of the sink, which decides from the earlier calls and the buffer whether a call fails. -/
structure Writer where
  calls : List (List Byte)
  outcome : List (List Byte) → List Byte → Option GoError

/-- `w.Write(p)`. -/
def Writer.Write (w : Writer) (p : List Byte) : Writer × Option GoError :=
  ({ w with calls := w.calls ++ [p] }, w.outcome w.calls p)

/-- An empty `bytes.Buffer`, whose `Write` never fails. -/
def bytesBuffer : Writer := { calls := [], outcome := fun _ _ => none }

/-- The content of the sink: all buffers written, concatenated. -/
def Writer.Bytes (w : Writer) : List Byte := w.calls.flatten

/-- The method `writeIps` of `bytepatch` and of `rlepatch`. -/
def Patch.writeIps : Patch → Writer → Writer × Option GoError
  | Patch.bytepatch values location, w =>
    -- front[0:4] = location, front[4:6] = uint16(len(values)); front[1:] is written
    let front := PutUint32 (location % 4294967296) ++ PutUint16 (values.length % 65536)
    let w1 := (w.Write (front.drop 1)).1
    let err := (w.Write (front.drop 1)).2
    if err ≠ none then (w1, err) else w1.Write values
  | Patch.rlepatch location length value, w =>
    -- front[0:4] = location, front[4:6] = 0, front[6:8] = length, front[8] = value
    let front := PutUint32 (location % 4294967296) ++ [0, 0] ++
      PutUint16 (length % 65536) ++ [value]
    w.Write (front.drop 1)

/-- The `for ... range src` loop of `WriteIpsSlice`: stops at the first failing patch. -/
def writeLoop : List Patch → Writer → Writer × Option GoError
  | [], w => (w, none)
  | p :: ps, w =>
    let w1 := (p.writeIps w).1
    let err2 := (p.writeIps w).2
    if err2 ≠ none then (w1, err2) else writeLoop ps w1

/-- `errs.First(msg, errs...)` of the library `Go.AppUtil/errs`: the first error that is
not nil, wrapped with the message, and nil when all are nil. -/
def errsFirst (msg : String) : List (Option GoError) → Option GoError
  | [] => none
  | some e :: _ => some (GoError.wrap msg e)
  | none :: rest => errsFirst msg rest

/-- `WriteIpsSlice(tgt, src)`. -/
def WriteIpsSlice (tgt : Writer) (src : List Patch) : Writer × Option GoError :=
  let w1 := (tgt.Write magic).1
  let err1 := (tgt.Write magic).2
  let w2 := (writeLoop src w1).1
  let err2 := (writeLoop src w1).2
  let w3 := (w2.Write eofMarker).1
  let err3 := (w2.Write eofMarker).2
  (w3, errsFirst "Formatting as IPS: " [err1, err2, err3])

/-- The bytes that `WriteIpsSlice` leaves in an empty `bytes.Buffer`. -/
def encode (s : List Patch) : List Byte := (WriteIpsSlice bytesBuffer s).1.Bytes

/-- The array `knownIps` of `ips_test.go`. -/
def knownIps : List Byte :=
  [0x50, 0x41, 0x54, 0x43, 0x48,
   0x00, 0x00, 0x15, 0x00, 0x00, 0x00, 0x0E, 0x07,
   0x00, 0x00, 0xFE, 0x00, 0x04, 0x01, 0x02, 0x03, 0x04,
   0x00, 0x01, 0x00, 0x00, 0x00, 0x01, 0x00, 0xFE,
   0x45, 0x4F, 0x46]

/-- The bytes that `writeIps` hands to a writer that never fails. -/
def Patch.wire (p : Patch) : List Byte := (p.writeIps bytesBuffer).1.Bytes

/-- A well-formed patch: the location fits three bytes; a literal patch carries 1 to 65535
bytes; a run-length patch has a length of 1 to 65535. -/
def Patch.WellFormed : Patch → Prop
  | Patch.bytepatch values location =>
    location ≤ 2 ^ 24 - 1 ∧ 1 ≤ values.length ∧ values.length ≤ 65535
  | Patch.rlepatch location length _ =>
    location ≤ 2 ^ 24 - 1 ∧ 1 ≤ length ∧ length ≤ 65535

/-- What the decoder guarantees of a patch it sends: as `WellFormed`, except that the
length of a run-length patch may be zero. -/
def Patch.Decodable : Patch → Prop
  | Patch.bytepatch values location =>
    location ≤ 2 ^ 24 - 1 ∧ 1 ≤ values.length ∧ values.length ≤ 65535
  | Patch.rlepatch location length _ => location ≤ 2 ^ 24 - 1 ∧ length ≤ 65535

/-- The unsigned big-endian representation of `v` in `n` bytes, most significant byte
first (the wire format's "big-endian, unsigned" integers). -/
def bigEndian : Nat → Nat → List Byte
  | 0, _ => []
  | n + 1, v => bigEndian n (v / 256) ++ [toByte v]

/-- The wire fragment of a patch as the format describes it: for a literal record
`offset:3 length:2 payload`, for a run-length record `offset:3 0x0000 run_length:2
fill_value:1`. -/
def specFragment : Patch → List Byte
  | Patch.bytepatch values location =>
    bigEndian 3 location ++ bigEndian 2 values.length ++ values
  | Patch.rlepatch location length value =>
    bigEndian 3 location ++ [0, 0] ++ bigEndian 2 length ++ [value]

/-! ## Writing from a channel -/

/-- A `chan Patch` seen from its receiver: the values that will be received, in order,
before the channel is found closed. -/
structure Chan where
  pending : List Patch
  deriving DecidableEq, Repr

/-- The loop `for p := range src` of `WriteIpsChan` over the values still to be received:
it stops at the first failing patch, leaving the later values in the channel. -/
def chanLoop : List Patch → Writer → (Writer × Option GoError) × Chan
  | [], w => ((w, none), { pending := [] })
  | p :: rest, w =>
    let w1 := (p.writeIps w).1
    let err2 := (p.writeIps w).2
    if err2 ≠ none then ((w1, err2), { pending := rest }) else chanLoop rest w1

/-- `WriteIpsChan(tgt, src)`: the writer afterwards, the error returned, and the channel
as it is left. -/
def WriteIpsChan (tgt : Writer) (src : Chan) : (Writer × Option GoError) × Chan :=
  let w1 := (tgt.Write magic).1
  let err1 := (tgt.Write magic).2
  let w2 := (chanLoop src.pending w1).1.1
  let err2 := (chanLoop src.pending w1).1.2
  let w3 := (w2.Write eofMarker).1
  let err3 := (w2.Write eofMarker).2
  ((w3, errsFirst "Formatting as IPS: " [err1, err2, err3]), (chanLoop src.pending w1).2)

/-- The results of the calls `Write(c)` for the buffers `c` of a list, made in order. -/
def Writer.results (w : Writer) : List (List Byte) → List (Option GoError)
  | [] => []
  | c :: cs => (w.Write c).2 :: Writer.results (w.Write c).1 cs

/-- The buffers that `writeIps` hands to `Write`, one after the other, when no call
fails. -/
def Patch.writes (p : Patch) : List (List Byte) := (p.writeIps bytesBuffer).1.calls

/-- The writer once the buffers `cs` have been handed to `Write`, in order. -/
def Writer.after (w : Writer) (cs : List (List Byte)) : Writer :=
  { w with calls := w.calls ++ cs }

/-- A writer whose first `Write` fails and whose later calls succeed. -/
def flakyWriter : Writer :=
  { calls := [],
    outcome := fun before _ => if before = [] then some (GoError.other "write failed") else none }

/-! ## Applying a patch -/

/-- `bytes.Repeat([]byte{b}, count)`. -/
def bytesRepeat (b : Byte) (count : Nat) : List Byte := List.replicate count b

/-- `errs.Wrap("Applying IPS patch", err)`. -/
def wrapApply (e : GoError) : GoError := GoError.wrap "Applying IPS patch" e

/-- The method `ApplyTo` of `bytepatch` and of `rlepatch`. The target is any
`io.WriterAt`: a state `ws` and its method `WriteAt(p, off)`, which gives the state
afterwards and the error. -/
def Patch.ApplyTo {σ : Type} (WriteAt : σ → List Byte → Nat → σ × Option GoError) :
    Patch → σ → σ × Option GoError
  | Patch.bytepatch values location, ws =>
    match (WriteAt ws values location).2 with
    | some err => ((WriteAt ws values location).1, some (wrapApply err))
    | none => ((WriteAt ws values location).1, none)
  | Patch.rlepatch location length value, ws =>
    let buf := bytesRepeat value length
    match (WriteAt ws buf location).2 with
    | some err => ((WriteAt ws buf location).1, some (wrapApply err))
    | none => ((WriteAt ws buf location).1, none)

/-- The target resource of `cmd/ipsapply`, a file opened for writing, as its content.
`WriteAt(p, off)` replaces the bytes from `off` on; a write that reaches beyond the end
extends the file, the gap (if any) reading as zero bytes. -/
def fileWriteAt (data : List Byte) (p : List Byte) (off : Nat) :
    List Byte × Option GoError :=
  if p = [] then (data, none)
  else
    ((data ++ List.replicate (off - data.length) 0).take off ++ p ++
      data.drop (off + p.length), none)

/-- The bytes a patch stands for: the values of a literal patch, `length` copies of
`value` for a run-length patch. -/
def Patch.payload : Patch → List Byte
  | Patch.bytepatch values _ => values
  | Patch.rlepatch _ length value => List.replicate length value

/-! ## Basic facts -/

theorem eof_bytes_eq : eof_bytes = 4542278 := by decide

theorem toByte_val (b : Byte) : toByte b.val = b := by
  apply Fin.ext
  simp only [toByte]
  exact Nat.mod_eq_of_lt b.isLt

theorem ReadFull_append (a rest : List Byte) :
    ReadFull (a ++ rest) a.length = (a, rest, none) := by
  simp [ReadFull]

theorem ReadFull_nil (n : Nat) (hn : n ≠ 0) :
    ReadFull [] n = ([], [], some GoError.EOF) := by
  simp [ReadFull, hn]

theorem ReadFull_ok (ips : List Byte) (n : Nat) (h : (ReadFull ips n).2.2 = none) :
    ips = (ReadFull ips n).1 ++ (ReadFull ips n).2.1 ∧ (ReadFull ips n).1.length = n := by
  unfold ReadFull at h ⊢
  by_cases hn : n ≤ ips.length
  · simp [hn]
  · rw [if_neg hn] at h
    by_cases he : ips = []
    · rw [if_pos he] at h
      cases h
    · rw [if_neg he] at h
      cases h

theorem ReadFull_short (ips : List Byte) (n : Nat) (h : ips.length < n) :
    ReadFull ips n =
      (ips, [], some (if ips = [] then GoError.EOF else GoError.ErrUnexpectedEOF)) := by
  unfold ReadFull
  have hn : ¬ n ≤ ips.length := by omega
  rw [if_neg hn]
  by_cases he : ips = []
  · rw [if_pos he, if_pos he, he]
  · rw [if_neg he, if_neg he]

/-! ## The encoder writes the fragments between the magic and the terminator -/

theorem wire_bytepatch (values : List Byte) (location : Nat) :
    (Patch.bytepatch values location).wire =
      [toByte (location % 4294967296 / 65536), toByte (location % 4294967296 / 256),
        toByte (location % 4294967296)] ++ PutUint16 (values.length % 65536) ++ values := by
  simp [Patch.wire, Patch.writeIps, Writer.Write, bytesBuffer, Writer.Bytes, PutUint32]

theorem wire_rlepatch (location length : Nat) (value : Byte) :
    (Patch.rlepatch location length value).wire =
      [toByte (location % 4294967296 / 65536), toByte (location % 4294967296 / 256),
        toByte (location % 4294967296)] ++ [0, 0] ++ PutUint16 (length % 65536) ++ [value] := by
  simp [Patch.wire, Patch.writeIps, Writer.Write, bytesBuffer, Writer.Bytes, PutUint32]

theorem writeIps_never_fails (p : Patch) (w : Writer) (hw : ∀ c b, w.outcome c b = none) :
    (p.writeIps w).2 = none ∧ (p.writeIps w).1.outcome = w.outcome ∧
      (p.writeIps w).1.Bytes = w.Bytes ++ p.wire := by
  cases p with
  | bytepatch values location =>
    simp [Patch.wire, Patch.writeIps, Writer.Write, bytesBuffer, Writer.Bytes, hw]
  | rlepatch location length value =>
    simp [Patch.wire, Patch.writeIps, Writer.Write, bytesBuffer, Writer.Bytes, hw]

theorem writeLoop_never_fails (s : List Patch) :
    ∀ w : Writer, (∀ c b, w.outcome c b = none) →
      (writeLoop s w).2 = none ∧ (writeLoop s w).1.outcome = w.outcome ∧
        (writeLoop s w).1.Bytes = w.Bytes ++ s.flatMap Patch.wire := by
  induction s with
  | nil => intro w _; simp [writeLoop]
  | cons p ps ih =>
    intro w hw
    obtain ⟨h1, h2, h3⟩ := writeIps_never_fails p w hw
    have hw1 : ∀ c b, (p.writeIps w).1.outcome c b = none := by
      intro c b; rw [h2]; exact hw c b
    obtain ⟨i1, i2, i3⟩ := ih (p.writeIps w).1 hw1
    simp only [writeLoop, h1, ne_eq, not_true_eq_false, if_false]
    refine ⟨i1, ?_, ?_⟩
    · rw [i2, h2]
    · rw [i3, h3]; simp

theorem WriteIpsSlice_never_fails (s : List Patch) (w : Writer)
    (hw : ∀ c b, w.outcome c b = none) :
    (WriteIpsSlice w s).2 = none ∧
      (WriteIpsSlice w s).1.Bytes = w.Bytes ++ magic ++ s.flatMap Patch.wire ++ eofMarker := by
  have hw1 : ∀ c b, (w.Write magic).1.outcome c b = none := by
    intro c b; exact hw c b
  obtain ⟨i1, i2, i3⟩ := writeLoop_never_fails s (w.Write magic).1 hw1
  have hw2 : ∀ c b, (writeLoop s (w.Write magic).1).1.outcome c b = none := by
    intro c b; rw [i2]; exact hw c b
  constructor
  · have e1 : (w.Write magic).2 = none := hw _ _
    have e3 : ((writeLoop s (w.Write magic).1).1.Write eofMarker).2 = none := hw2 _ _
    simp only [WriteIpsSlice, i1, e1, e3, errsFirst]
  · simp only [WriteIpsSlice]
    have : ∀ (v : Writer) (p : List Byte), (v.Write p).1.Bytes = v.Bytes ++ p := by
      intro v p; simp [Writer.Write, Writer.Bytes]
    rw [this, i3, this]

theorem encode_eq (s : List Patch) :
    encode s = magic ++ s.flatMap Patch.wire ++ eofMarker := by
  have h := (WriteIpsSlice_never_fails s bytesBuffer (fun _ _ => rfl)).2
  simpa [encode, bytesBuffer, Writer.Bytes] using h

theorem toByte_small (n : Nat) (h : n < 16777216) :
    toByte (n % 4294967296 / 65536) = toByte (n / 256 / 256) ∧
      toByte (n % 4294967296 / 256) = toByte (n / 256) ∧
      toByte (n % 4294967296) = toByte n := by
  have h1 : n % 4294967296 = n := Nat.mod_eq_of_lt (by omega)
  rw [h1]
  refine ⟨?_, rfl, rfl⟩
  congr 1
  omega

theorem wire_eq_specFragment (p : Patch) (h : p.Decodable) : p.wire = specFragment p := by
  cases p with
  | bytepatch values location =>
    obtain ⟨h1, _, h3⟩ := h
    obtain ⟨e1, e2, e3⟩ := toByte_small location (by omega)
    have e4 : values.length % 65536 = values.length := Nat.mod_eq_of_lt (by omega)
    rw [wire_bytepatch, e1, e2, e3, e4]
    simp [specFragment, bigEndian, PutUint16]
  | rlepatch location length value =>
    obtain ⟨h1, h3⟩ := h
    obtain ⟨e1, e2, e3⟩ := toByte_small location (by omega)
    have e4 : length % 65536 = length := Nat.mod_eq_of_lt (by omega)
    rw [wire_rlepatch, e1, e2, e3, e4]
    simp [specFragment, bigEndian, PutUint16]

theorem WellFormed.decodable (p : Patch) (h : p.WellFormed) : p.Decodable := by
  cases p with
  | bytepatch values location => exact h
  | rlepatch location length value => exact ⟨h.1, h.2.2⟩

/-! ## One pass of the decoder loop over a complete record -/

theorem Uint16_PutUint16 (n : Nat) (h : n ≤ 65535) :
    Uint16 (toByte (n / 256)) (toByte n) = n := by
  simp only [Uint16, toByte]
  omega

theorem Uint32_PutUint32 (n : Nat) (h : n ≤ 2 ^ 24 - 1) :
    Uint32 0 (toByte (n / 256 / 256)) (toByte (n / 256)) (toByte n) = n := by
  simp only [Uint32, toByte, Fin.val_zero]
  omega

theorem Uint32_lt (a b c : Byte) : Uint32 0 a b c ≤ 2 ^ 24 - 1 := by
  have ha := a.isLt
  have hb := b.isLt
  have hc := c.isLt
  simp only [Uint32, Fin.val_zero]
  omega

theorem Uint16_lt (a b : Byte) : Uint16 a b ≤ 65535 := by
  have ha := a.isLt
  have hb := b.isLt
  simp only [Uint16]
  omega

theorem PutUint32_Uint32 (a b c : Byte) :
    toByte (Uint32 0 a b c % 4294967296 / 65536) = a ∧
      toByte (Uint32 0 a b c % 4294967296 / 256) = b ∧
      toByte (Uint32 0 a b c % 4294967296) = c := by
  have ha := a.isLt
  have hb := b.isLt
  have hc := c.isLt
  refine ⟨?_, ?_, ?_⟩ <;> apply Fin.ext <;> simp only [Uint32, toByte, Fin.val_zero] <;> omega

theorem PutUint16_Uint16 (a b : Byte) : PutUint16 (Uint16 a b % 65536) = [a, b] := by
  have ha := a.isLt
  have hb := b.isLt
  have e1 : toByte (Uint16 a b % 65536 / 256) = a := by
    apply Fin.ext; simp only [Uint16, toByte]; omega
  have e2 : toByte (Uint16 a b % 65536) = b := by
    apply Fin.ext; simp only [Uint16, toByte]; omega
  simp only [PutUint16, e1, e2]

theorem ReadFull_two (a b : Byte) (t : List Byte) :
    ReadFull (a :: b :: t) 2 = ([a, b], t, none) := by
  simp [ReadFull]

theorem ReadFull_three (a b c : Byte) (t : List Byte) :
    ReadFull (a :: b :: c :: t) 3 = ([a, b, c], t, none) := by
  simp [ReadFull]

theorem Uint16_zero : Uint16 0 0 = 0 := by decide

theorem loopBody_literal (a b c hi lo : Byte) (vals rest : List Byte) (bf : Buff)
    (hne : Uint16 hi lo ≠ 0) (hl : vals.length = Uint16 hi lo) :
    loopBody { ips := a :: b :: c :: hi :: lo :: (vals ++ rest), err := none, buff := bf } =
      (Uint32 0 a b c, some (Patch.bytepatch vals (Uint32 0 a b c)),
        { ips := rest, err := none, buff := ⟨hi, lo, b, c⟩ }) := by
  have hr := ReadFull_append vals rest
  rw [hl] at hr
  simp [loopBody, read3, read2, ReadFull_three, ReadFull_two, Buff.store3, Buff.store2, hne,
    NewBytePatch, hr]

theorem loopBody_rle (a b c hi lo v : Byte) (rest : List Byte) (bf : Buff) :
    loopBody { ips := a :: b :: c :: 0 :: 0 :: hi :: lo :: v :: rest, err := none, buff := bf } =
      (Uint32 0 a b c, some (Patch.rlepatch (Uint32 0 a b c) (Uint16 hi lo) v),
        { ips := rest, err := none, buff := ⟨v, lo, b, c⟩ }) := by
  simp [loopBody, read3, read2, read1, ReadFull_three, ReadFull_two, Buff.store3, Buff.store2,
    Buff.store1, NewRlePatch, Uint16_zero]

theorem loopBody_wire (p : Patch) (h : p.Decodable) (rest : List Byte) (bf : Buff) :
    ∃ bf2, loopBody { ips := p.wire ++ rest, err := none, buff := bf } =
      (p.location, some p, { ips := rest, err := none, buff := bf2 }) := by
  cases p with
  | bytepatch values location =>
    obtain ⟨h1, h2, h3⟩ := h
    obtain ⟨e1, e2, e3⟩ := toByte_small location (by omega)
    have e4 : values.length % 65536 = values.length := Nat.mod_eq_of_lt (by omega)
    have e5 := Uint16_PutUint16 values.length h3
    have e6 := Uint32_PutUint32 location h1
    refine ⟨⟨toByte (values.length / 256), toByte values.length, toByte (location / 256),
      toByte location⟩, ?_⟩
    rw [wire_bytepatch, e1, e2, e3, e4]
    simp only [PutUint16, List.cons_append, List.nil_append, List.append_assoc]
    rw [loopBody_literal _ _ _ _ _ _ _ _ (by omega) e5.symm, e6]
    rfl
  | rlepatch location length value =>
    obtain ⟨h1, h3⟩ := h
    obtain ⟨e1, e2, e3⟩ := toByte_small location (by omega)
    have e4 : length % 65536 = length := Nat.mod_eq_of_lt (by omega)
    have e5 := Uint16_PutUint16 length h3
    have e6 := Uint32_PutUint32 location h1
    refine ⟨⟨value, toByte length, toByte (location / 256), toByte location⟩, ?_⟩
    rw [wire_rlepatch, e1, e2, e3, e4]
    simp only [PutUint16, List.cons_append, List.nil_append, List.append_assoc]
    rw [loopBody_rle, e5, e6]
    rfl

theorem wire_length_pos (p : Patch) : 0 < p.wire.length := by
  cases p with
  | bytepatch values location => rw [wire_bytepatch]; simp
  | rlepatch location length value => rw [wire_rlepatch]; simp

/-! ## The decoder loop over a sequence of complete records -/

theorem parseLoop_continue (fuel : Nat) (r : Reader) (h : (loopBody r).2.2.err = none) :
    parseLoop (fuel + 1) r =
      (parseLoop fuel (loopBody r).2.2).map
        (fun res => { patches := (loopBody r).2.1.toList ++ res.patches, err := res.err }) := by
  simp only [parseLoop, h]
  cases parseLoop fuel (loopBody r).2.2 <;> simp

theorem parseLoop_stop (fuel : Nat) (r : Reader) (e : GoError)
    (h : (loopBody r).2.2.err = some e) :
    parseLoop (fuel + 1) r =
      some { patches := (loopBody r).2.1.toList,
             err := if (loopBody r).1 = eof_bytes ∧ e = GoError.EOF then none
                    else some (wrapRead e) } := by
  simp only [parseLoop, h]
  by_cases hc : (loopBody r).1 = eof_bytes ∧ e = GoError.EOF
  · simp [hc]
  · have hc2 : ¬ ((loopBody r).1 = eof_bytes ∧ some e = some GoError.EOF) := by
      simpa using hc
    simp only [hc2, hc, if_false]

theorem parseLoop_wire_append (s : List Patch) (hs : ∀ p ∈ s, p.Decodable) :
    ∀ (tail : List Byte) (bf : Buff) (fuel : Nat),
      (s.flatMap Patch.wire ++ tail).length < fuel →
      ∃ bf2 fuel2, tail.length < fuel2 ∧
        parseLoop fuel { ips := s.flatMap Patch.wire ++ tail, err := none, buff := bf } =
          (parseLoop fuel2 { ips := tail, err := none, buff := bf2 }).map
            (fun res => { patches := s ++ res.patches, err := res.err }) := by
  induction s with
  | nil =>
    intro tail bf fuel hf
    refine ⟨bf, fuel, by simpa using hf, ?_⟩
    simp only [List.flatMap_nil, List.nil_append]
    generalize parseLoop fuel { ips := tail, err := none, buff := bf } = o
    cases o <;> rfl
  | cons p ps ih =>
    intro tail bf fuel hf
    have hp : p.Decodable := hs p (List.mem_cons_self _ _)
    have hps : ∀ q ∈ ps, q.Decodable := fun q hq => hs q (List.mem_cons_of_mem _ hq)
    obtain ⟨bf1, hb⟩ := loopBody_wire p hp (ps.flatMap Patch.wire ++ tail) bf
    have hpos := wire_length_pos p
    have e0 : (p :: ps).flatMap Patch.wire ++ tail
        = p.wire ++ (ps.flatMap Patch.wire ++ tail) := by simp
    rw [e0] at hf ⊢
    cases fuel with
    | zero => simp at hf
    | succ f =>
      have hf2 : (ps.flatMap Patch.wire ++ tail).length < f := by
        simp only [List.length_append] at hf ⊢
        omega
      obtain ⟨bf2, fuel2, hlt, heq⟩ := ih hps tail bf1 f hf2
      refine ⟨bf2, fuel2, hlt, ?_⟩
      rw [parseLoop_continue f _ (by rw [hb]), hb]
      simp only [heq, Option.toList]
      generalize parseLoop fuel2 { ips := tail, err := none, buff := bf2 } = o
      cases o <;> simp

theorem parseFile_magic (x : List Byte) :
    parseFile (magic ++ x) =
      parseLoop ((magic ++ x).length + 1) { ips := x, err := none, buff := ⟨0, 0, 0, 0⟩ } := by
  have h := ReadFull_append magic x
  have hl : magic.length = 5 := rfl
  rw [hl] at h
  simp [parseFile, readHeader, h, hl]

theorem loopBody_eofMarker (bf : Buff) :
    loopBody { ips := eofMarker, err := none, buff := bf } =
      (eof_bytes, none, { ips := [], err := some GoError.EOF, buff := ⟨0, 0x45, 0x4F, 0x46⟩ }) := by
  have h1 : Uint16 0 0x45 = 69 := by decide
  have h2 : Uint32 0 0x45 0x4F 0x46 = eof_bytes := by decide
  have h3 : ReadFull [] 2 = ([], [], some GoError.EOF) := ReadFull_nil 2 (by decide)
  have h4 : ReadFull [] 69 = ([], [], some GoError.EOF) := ReadFull_nil 69 (by decide)
  simp [loopBody, read3, read2, eofMarker, ReadFull_three, Buff.store3, Buff.store2, h1, h2, h3,
    h4]

theorem flatMap_wire_eq_spec (s : List Patch) (hs : ∀ p ∈ s, p.Decodable) :
    s.flatMap Patch.wire = s.flatMap specFragment := by
  induction s with
  | nil => rfl
  | cons p ps ih =>
    simp only [List.flatMap_cons]
    rw [wire_eq_specFragment p (hs p (List.mem_cons_self _ _)),
      ih (fun q hq => hs q (List.mem_cons_of_mem _ hq))]

theorem readHeader_short (b : List Byte) (h : b.take 5 ≠ magic) : readHeader b ≠ magic := by
  unfold readHeader
  by_cases hl : 5 ≤ b.length
  · have e : ReadFull b 5 = (b.take 5, b.drop 5, none) := by simp [ReadFull, hl]
    rw [e]
    simpa [hl] using h
  · rw [ReadFull_short b 5 (by omega)]
    match b, hl with
    | [], _ => decide
    | [_], _ => simp [magic]
    | [_, _], _ => simp [magic]
    | [_, _, _], _ => simp [magic]
    | [_, _, _, _], _ => simp [magic]
    | _ :: _ :: _ :: _ :: _ :: _, hl => simp at hl

/-! ## Every pass of the decoder loop, whatever the stream -/

theorem read3_cases (r : Reader) (h : r.err = none) :
    (∃ a b c t, r.ips = a :: b :: c :: t ∧
        read3 r = (Uint32 0 a b c, { ips := t, err := none, buff := ⟨0, a, b, c⟩ })) ∨
      ((read3 r).2.err ≠ none ∧ (read3 r).2.ips = []) := by
  rcases r with ⟨ips, err, bf⟩
  simp only at h
  subst h
  match ips with
  | [] => right; simp [read3, ReadFull]
  | [_] => right; simp [read3, ReadFull]
  | [_, _] => right; simp [read3, ReadFull]
  | a :: b :: c :: t =>
    left
    exact ⟨a, b, c, t, rfl, by simp [read3, ReadFull_three, Buff.store3]⟩

theorem read2_cases (r : Reader) (h : r.err = none) :
    (∃ d e u, r.ips = d :: e :: u ∧
        read2 r = (Uint16 d e, { ips := u, err := none, buff := ⟨d, e, r.buff.b2, r.buff.b3⟩ })) ∨
      ((read2 r).2.err ≠ none ∧ (read2 r).2.ips = []) := by
  rcases r with ⟨ips, err, bf⟩
  simp only at h
  subst h
  match ips with
  | [] => right; simp [read2, ReadFull]
  | [_] => right; simp [read2, ReadFull]
  | d :: e :: u =>
    left
    exact ⟨d, e, u, rfl, by simp [read2, ReadFull_two, Buff.store2]⟩

theorem read2_skip (r : Reader) (h : r.err ≠ none) : (read2 r).2 = r := by
  simp [read2, h]

theorem read1_skip (r : Reader) (h : r.err ≠ none) : (read1 r).2 = r := by
  simp [read1, h]

theorem read1_cases (r : Reader) (h : r.err = none) :
    (∃ x w, r.ips = x :: w ∧
        read1 r = (x, { ips := w, err := none, buff := { r.buff with b0 := x } })) ∨
      ((read1 r).2.err ≠ none ∧ (read1 r).2.ips = []) := by
  rcases r with ⟨ips, err, bf⟩
  simp only at h
  subst h
  match ips with
  | [] => right; simp [read1]
  | x :: w => left; exact ⟨x, w, rfl, by simp [read1, Buff.store1]⟩

/-- Once the stream is exhausted and `err` is set, the rest of a pass sends nothing and
leaves `err` set. -/
theorem loopBody_dead (r : Reader) (r2 : Reader) (h2 : (read2 (read3 r).2).2 = r2)
    (he : r2.err ≠ none) (hi : r2.ips = []) :
    (loopBody r).2.2.err ≠ none ∧ (loopBody r).2.1 = none := by
  unfold loopBody
  simp only [h2]
  split
  · rw [read2_skip r2 he, read1_skip r2 he]
    simp [he]
  · rename_i hp
    rw [hi, ReadFull_nil _ hp]
    simp


theorem Uint16_eq_zero (d e : Byte) (h : Uint16 d e = 0) : d = 0 ∧ e = 0 := by
  simp only [Uint16] at h
  constructor <;> apply Fin.ext <;> simp only [Fin.val_zero] <;> omega

theorem loopBody_cases (ips : List Byte) (bf : Buff) :
    ((loopBody ⟨ips, none, bf⟩).2.2.err ≠ none ∧ (loopBody ⟨ips, none, bf⟩).2.1 = none) ∨
      (∃ p, (loopBody ⟨ips, none, bf⟩).2.2.err = none ∧
        (loopBody ⟨ips, none, bf⟩).2.1 = some p ∧ p.Decodable ∧
        ips = p.wire ++ (loopBody ⟨ips, none, bf⟩).2.2.ips) := by
  rcases read3_cases ⟨ips, none, bf⟩ rfl with ⟨a, b, c, t, hips, h3⟩ | ⟨he, hi⟩
  · simp only at hips
    subst hips
    rcases read2_cases ⟨t, none, ⟨0, a, b, c⟩⟩ rfl with ⟨d, e, u, ht, h2⟩ | ⟨he, hi⟩
    · simp only at ht h2
      subst ht
      by_cases hz : Uint16 d e = 0
      · obtain ⟨hd, he⟩ := Uint16_eq_zero d e hz
        subst hd he
        rcases read2_cases ⟨u, none, ⟨0, 0, b, c⟩⟩ rfl with ⟨f, g, v, hu, h4⟩ | ⟨he, hi⟩
        · simp only at hu h4
          subst hu
          rcases read1_cases ⟨v, none, ⟨f, g, b, c⟩⟩ rfl with ⟨x, w, hv, h5⟩ | ⟨he, hi⟩
          · simp only at hv h5
            subst hv
            right
            refine ⟨Patch.rlepatch (Uint32 0 a b c) (Uint16 f g) x, ?_⟩
            rw [loopBody_rle a b c f g x w bf]
            obtain ⟨e1, e2, e3⟩ := PutUint32_Uint32 a b c
            refine ⟨rfl, rfl, ⟨Uint32_lt a b c, Uint16_lt f g⟩, ?_⟩
            rw [wire_rlepatch, e1, e2, e3, PutUint16_Uint16]
            rfl
          · left
            unfold loopBody
            simp only [h3, h2, hz, if_true, h4]
            exact ⟨he, by simp [he]⟩
        · left
          unfold loopBody
          simp only [h3, h2, hz, if_true]
          rw [read1_skip _ he]
          exact ⟨he, by simp [he]⟩
      · by_cases hl : Uint16 d e ≤ u.length
        · right
          have hu : u = u.take (Uint16 d e) ++ u.drop (Uint16 d e) :=
            (List.take_append_drop _ _).symm
          have hlen : (u.take (Uint16 d e)).length = Uint16 d e := by
            simp [hl]
          refine ⟨Patch.bytepatch (u.take (Uint16 d e)) (Uint32 0 a b c), ?_⟩
          have hb := loopBody_literal a b c d e (u.take (Uint16 d e)) (u.drop (Uint16 d e)) bf
            hz hlen
          rw [← hu] at hb
          rw [hb]
          obtain ⟨e1, e2, e3⟩ := PutUint32_Uint32 a b c
          have h16 := Uint16_lt d e
          refine ⟨rfl, rfl, ⟨Uint32_lt a b c, by omega, by omega⟩, ?_⟩
          rw [wire_bytepatch, e1, e2, e3, hlen, PutUint16_Uint16]
          simp
        · left
          unfold loopBody
          simp only [h3, h2, hz, if_false]
          rw [ReadFull_short u _ (by omega)]
          simp
    · left
      apply loopBody_dead _ _ rfl
      · rw [h3]; exact he
      · rw [h3]; exact hi
  · left
    exact loopBody_dead _ (read3 ⟨ips, none, bf⟩).2 (read2_skip _ he) he hi


theorem parseLoop_records (fuel : Nat) :
    ∀ (ips : List Byte) (bf : Buff) (res : Result),
      parseLoop fuel ⟨ips, none, bf⟩ = some res →
      ∃ tail, ips = res.patches.flatMap Patch.wire ++ tail ∧
        ∀ p ∈ res.patches, p.Decodable := by
  induction fuel with
  | zero => intro ips bf res h; simp [parseLoop] at h
  | succ f ih =>
    intro ips bf res h
    rcases loopBody_cases ips bf with ⟨hne, hs⟩ | ⟨p, he, hs, hd, hips⟩
    · obtain ⟨e, he⟩ := Option.ne_none_iff_exists'.mp hne
      rw [parseLoop_stop f _ e he, hs] at h
      simp only [Option.toList, Option.some.injEq] at h
      subst h
      exact ⟨ips, by simp, by simp⟩
    · rw [parseLoop_continue f _ he, hs] at h
      generalize hr : (loopBody ⟨ips, none, bf⟩).2.2 = r2 at he hips h
      rcases r2 with ⟨ips2, err2, bf2⟩
      simp only at he hips
      subst he
      obtain ⟨res2, h2, hres⟩ := Option.map_eq_some'.mp h
      obtain ⟨tail, ht, hall⟩ := ih ips2 bf2 res2 h2
      subst hres
      refine ⟨tail, ?_, ?_⟩
      · simp only [Option.toList, List.singleton_append, List.flatMap_cons, List.append_assoc]
        rw [← ht]
        exact hips
      · intro q hq
        simp only [Option.toList, List.singleton_append, List.mem_cons] at hq
        rcases hq with rfl | hq
        · exact hd
        · exact hall q hq

theorem parseLoop_total (fuel : Nat) :
    ∀ (ips : List Byte) (bf : Buff), ips.length < fuel →
      ∃ res, parseLoop fuel ⟨ips, none, bf⟩ = some res := by
  induction fuel with
  | zero => intro ips bf h; simp at h
  | succ f ih =>
    intro ips bf h
    rcases loopBody_cases ips bf with ⟨hne, _⟩ | ⟨p, he, _, _, hips⟩
    · obtain ⟨e, he⟩ := Option.ne_none_iff_exists'.mp hne
      rw [parseLoop_stop f _ e he]
      exact ⟨_, rfl⟩
    · rw [parseLoop_continue f _ he]
      generalize hr : (loopBody ⟨ips, none, bf⟩).2.2 = r2 at he hips
      rcases r2 with ⟨ips2, err2, bf2⟩
      simp only at he hips
      subst he
      have hpos := wire_length_pos p
      have hlen : ips2.length < f := by
        have := congrArg List.length hips
        simp only [List.length_append] at this
        omega
      obtain ⟨res2, h2⟩ := ih ips2 bf2 hlen
      rw [h2]
      exact ⟨_, rfl⟩

theorem parseFile_cases (b : List Byte) :
    (b.take 5 ≠ magic ∧
        parseFile b =
          some { patches := [], err := some (GoError.errorf "Not a valid IPS file!") }) ∨
      (∃ x, b = magic ++ x ∧
        parseFile b = parseLoop (b.length + 1) ⟨x, none, ⟨0, 0, 0, 0⟩⟩) := by
  by_cases h : b.take 5 = magic
  · right
    refine ⟨b.drop 5, ?_, ?_⟩
    · rw [← h]; exact (List.take_append_drop 5 b).symm
    · have hb : b = magic ++ b.drop 5 := by
        rw [← h]; exact (List.take_append_drop 5 b).symm
      have := parseFile_magic (b.drop 5)
      rw [← hb] at this
      exact this
  · left
    exact ⟨h, by simp [parseFile, readHeader_short b h]⟩

/-- The decoder always returns. -/
theorem parseFile_total (b : List Byte) : ∃ res, parseFile b = some res := by
  rcases parseFile_cases b with ⟨_, h⟩ | ⟨x, hb, h⟩
  · exact ⟨_, h⟩
  · rw [h]
    apply parseLoop_total
    rw [hb]
    simp only [List.length_append]
    omega

theorem parseFile_records (b : List Byte) (res : Result) (h : parseFile b = some res) :
    (∀ p ∈ res.patches, p.Decodable) ∧
      (res = { patches := [], err := some (GoError.errorf "Not a valid IPS file!") } ∨
        ∃ tail, b = magic ++ res.patches.flatMap Patch.wire ++ tail) := by
  rcases parseFile_cases b with ⟨_, h2⟩ | ⟨x, hb, h2⟩
  · rw [h2] at h
    simp only [Option.some.injEq] at h
    subst h
    exact ⟨by simp, Or.inl rfl⟩
  · rw [h2] at h
    obtain ⟨tail, ht, hall⟩ := parseLoop_records _ x _ res h
    refine ⟨hall, Or.inr ⟨tail, ?_⟩⟩
    rw [hb, ht, List.append_assoc]

theorem loopBody_truncated (a b c hi lo : Byte) (payload : List Byte) (bf : Buff)
    (hne : Uint16 hi lo ≠ 0) (hl : payload.length < Uint16 hi lo) :
    loopBody { ips := a :: b :: c :: hi :: lo :: payload, err := none, buff := bf } =
      (Uint32 0 a b c, none,
        { ips := [],
          err := some (if payload = [] then GoError.EOF else GoError.ErrUnexpectedEOF),
          buff := ⟨hi, lo, b, c⟩ }) := by
  have hr := ReadFull_short payload (Uint16 hi lo) hl
  simp [loopBody, read3, read2, ReadFull_three, ReadFull_two, Buff.store3, Buff.store2, hne, hr]

theorem Uint32_eq_eof_bytes (a b c : Byte) :
    Uint32 0 a b c = eof_bytes ↔ [a, b, c] = eofMarker := by
  have ha := a.isLt
  have hb := b.isLt
  have hc := c.isLt
  rw [eof_bytes_eq]
  simp only [Uint32, Fin.val_zero, eofMarker, List.cons.injEq, and_true]
  constructor
  · intro h
    refine ⟨Fin.ext ?_, Fin.ext ?_, Fin.ext ?_⟩
    · show a.val = 69
      omega
    · show b.val = 79
      omega
    · show c.val = 70
      omega
  · rintro ⟨rfl, rfl, rfl⟩
    rfl

theorem parseFile_encode_decodable (s : List Patch) (hd : ∀ p ∈ s, p.Decodable) :
    parseFile (encode s) = some { patches := s, err := none } := by
  rw [encode_eq, List.append_assoc, parseFile_magic]
  obtain ⟨bf2, fuel2, hlt, heq⟩ := parseLoop_wire_append s hd eofMarker ⟨0, 0, 0, 0⟩
    ((magic ++ (s.flatMap Patch.wire ++ eofMarker)).length + 1)
    (by simp only [List.length_append]; omega)
  rw [heq]
  cases fuel2 with
  | zero => simp at hlt
  | succ f =>
    rw [parseLoop_stop f _ GoError.EOF (by rw [loopBody_eofMarker])]
    simp [loopBody_eofMarker]

/-! ## The claims -/

/-- C1: decoding what `WriteIpsSlice` wrote for a sequence of well-formed patches (location
at most 2^24-1, the location 0x454F46 included; 1 to 65535 payload bytes; run length 1 to
65535) sends exactly those patches, in order, and ends without an error. -/
theorem decode_encode_roundtrip (s : List Patch) (hs : ∀ p ∈ s, p.WellFormed) :
    parseFile (encode s) = some { patches := s, err := none } :=
  parseFile_encode_decodable s (fun p hp => WellFormed.decodable p (hs p hp))

/-- A sequence with a literal and a run-length patch at the location 0x454F46. -/
theorem decode_encode_roundtrip_witness :
    (∀ p ∈ [Patch.bytepatch [1, 2, 3] 0x454F46, Patch.rlepatch 0x454F46 2 7],
        p.WellFormed) ∧
      parseFile (encode [Patch.bytepatch [1, 2, 3] 0x454F46, Patch.rlepatch 0x454F46 2 7]) =
        some { patches := [Patch.bytepatch [1, 2, 3] 0x454F46, Patch.rlepatch 0x454F46 2 7],
               err := none } :=
  ⟨by simp [Patch.WellFormed],
   decode_encode_roundtrip _ (by simp [Patch.WellFormed])⟩

/-- C3: given well-formed patches and a writer that never fails, `WriteIpsSlice` appends
the five bytes "PATCH", then the fragment of each patch in order, then the three bytes
"EOF", and returns no error; a literal fragment is the 3-byte big-endian location, the
2-byte big-endian payload length and the payload (5 + len bytes), a run-length fragment
the 3-byte big-endian location, 0x00 0x00, the 2-byte big-endian run length and the fill
byte (8 bytes). -/
theorem WriteIpsSlice_wire_layout (s : List Patch) (hs : ∀ p ∈ s, p.WellFormed)
    (w : Writer) (hw : ∀ c b, w.outcome c b = none) :
    (WriteIpsSlice w s).1.Bytes = w.Bytes ++ magic ++ s.flatMap specFragment ++ eofMarker ∧
      (WriteIpsSlice w s).2 = none ∧ magic.length = 5 ∧ eofMarker.length = 3 ∧
      (∀ values location, (specFragment (Patch.bytepatch values location)).length
          = 5 + values.length) ∧
      (∀ location length value, (specFragment (Patch.rlepatch location length value)).length
          = 8) := by
  have hd : ∀ p ∈ s, p.Decodable := fun p hp => WellFormed.decodable p (hs p hp)
  obtain ⟨h1, h2⟩ := WriteIpsSlice_never_fails s w hw
  refine ⟨?_, h1, rfl, rfl, ?_, ?_⟩
  · rw [h2, flatMap_wire_eq_spec s hd]
  · intro values location
    simp [specFragment, bigEndian]
    omega
  · intro location length value
    simp [specFragment, bigEndian]

/-- The wire layout on an empty `bytes.Buffer` for a literal and a run-length patch. -/
theorem WriteIpsSlice_wire_layout_witness :
    (∀ p ∈ [Patch.bytepatch [1, 2, 3] 0x123456, Patch.rlepatch 0x100 300 7], p.WellFormed) ∧
      (∀ c b, bytesBuffer.outcome c b = none) ∧
      (WriteIpsSlice bytesBuffer
          [Patch.bytepatch [1, 2, 3] 0x123456, Patch.rlepatch 0x100 300 7]).1.Bytes =
        [0x50, 0x41, 0x54, 0x43, 0x48, 0x12, 0x34, 0x56, 0x00, 0x03, 1, 2, 3,
          0x00, 0x01, 0x00, 0x00, 0x00, 0x01, 0x2C, 7, 0x45, 0x4F, 0x46] :=
  ⟨by simp [Patch.WellFormed], fun _ _ => rfl,
   (WriteIpsSlice_wire_layout _ (by simp [Patch.WellFormed]) bytesBuffer
      (fun _ _ => rfl)).1.trans (by decide)⟩

/-- C4: a stream whose first five bytes are not "PATCH" (any stream shorter than five bytes
included) makes the decoder send no patch and report the error "Not a valid IPS file!". -/
theorem magic_rejection (b : List Byte) (h : b.take 5 ≠ magic) :
    parseFile b =
      some { patches := [], err := some (GoError.errorf "Not a valid IPS file!") } := by
  simp [parseFile, readHeader_short b h]

/-- A stream of four bytes, "PATC", is rejected. -/
theorem magic_rejection_witness :
    List.take 5 [(0x50 : Byte), 0x41, 0x54, 0x43] ≠ magic ∧
      parseFile [0x50, 0x41, 0x54, 0x43] =
        some { patches := [], err := some (GoError.errorf "Not a valid IPS file!") } :=
  ⟨by decide, magic_rejection _ (by decide)⟩


/-- C2, refuted as stated: the ten bytes "PATCH", "EOF", 0x00, 0x00 are decoded without an
error into no patch at all, and writing no patch gives the eight bytes "PATCH", "EOF", not
the stream that was read. -/
theorem encode_decode_counterexample :
    parseFile (magic ++ eofMarker ++ [0x00, 0x00]) = some { patches := [], err := none } ∧
      encode [] ≠ magic ++ eofMarker ++ [0x00, 0x00] := by
  decide

/-- C2, amended: when the decoder finishes without an error, the stream it read and the
encoder's output for the patches it sent share everything up to the end of the last complete
record; the output then continues with "EOF", and it is identical to the stream exactly when
the rest of the stream is "EOF" as well. -/
theorem encode_decode_consumed (b : List Byte) (ps : List Patch)
    (h : parseFile b = some { patches := ps, err := none }) :
    ∃ body tail, b = body ++ tail ∧ encode ps = body ++ eofMarker ∧
      (encode ps = b ↔ tail = eofMarker) := by
  obtain ⟨_, hr⟩ := parseFile_records b _ h
  rcases hr with hr | ⟨tail, hb⟩
  · simp at hr
  · simp only at hb
    refine ⟨magic ++ ps.flatMap Patch.wire, tail, hb, encode_eq ps, ?_⟩
    rw [encode_eq, hb]
    constructor
    · intro he
      exact (List.append_cancel_left he).symm
    · intro he
      rw [he]

/-- The fixture `knownIps` of the test is decoded without an error, and its patches are
written back as `knownIps`. -/
theorem encode_decode_consumed_witness :
    parseFile knownIps =
        some { patches := [Patch.rlepatch 0x15 14 7, Patch.bytepatch [1, 2, 3, 4] 0xFE,
                 Patch.rlepatch 0x100 256 0xFE],
               err := none } ∧
      (∃ body tail, knownIps = body ++ tail ∧
        encode [Patch.rlepatch 0x15 14 7, Patch.bytepatch [1, 2, 3, 4] 0xFE,
          Patch.rlepatch 0x100 256 0xFE] = body ++ eofMarker ∧
        (encode [Patch.rlepatch 0x15 14 7, Patch.bytepatch [1, 2, 3, 4] 0xFE,
          Patch.rlepatch 0x100 256 0xFE] = knownIps ↔ tail = eofMarker)) ∧
      encode [Patch.rlepatch 0x15 14 7, Patch.bytepatch [1, 2, 3, 4] 0xFE,
        Patch.rlepatch 0x100 256 0xFE] = knownIps :=
  ⟨by decide, encode_decode_consumed knownIps _ (by decide), by decide⟩

/-- C5, the code at the failing input: the thirteen bytes "PATCH" and one complete run-length
record (offset 0x004F46, run length 0x0045, fill 0xAA), with no "EOF" after it, are decoded
into that patch and no error is reported. -/
theorem missing_terminator_accepted :
    magic ++ specFragment (Patch.rlepatch 0x004F46 0x0045 0xAA) =
        [0x50, 0x41, 0x54, 0x43, 0x48, 0x00, 0x4F, 0x46, 0x00, 0x00, 0x00, 0x45, 0xAA] ∧
      parseFile [0x50, 0x41, 0x54, 0x43, 0x48, 0x00, 0x4F, 0x46, 0x00, 0x00, 0x00, 0x45, 0xAA] =
        some { patches := [Patch.rlepatch 0x004F46 0x0045 0xAA], err := none } := by
  decide

/-- C6, refuted as stated: "PATCH", no record, then the offset bytes 'E','O','F', the length
0x0005 and none of the five payload bytes: the decoder reports no error. -/
theorem truncated_payload_counterexample :
    parseFile (magic ++ [0x45, 0x4F, 0x46] ++ [0x00, 0x05] ++ []) =
      some { patches := [], err := none } := by
  decide

/-- C6, amended: on "PATCH", complete records, a 3-byte offset, a non-zero length L and fewer
than L payload bytes, the decoder sends exactly the patches of the complete records; it
reports an error (wrapping `io.EOF` when no payload byte is there, `io.ErrUnexpectedEOF`
otherwise) unless the offset bytes are 'E','O','F' and no payload byte at all follows the
length, in which case it ends without an error. -/
theorem truncated_payload (s : List Patch) (hs : ∀ p ∈ s, p.WellFormed)
    (a b c hi lo : Byte) (payload : List Byte)
    (hne : Uint16 hi lo ≠ 0) (hl : payload.length < Uint16 hi lo) :
    parseFile (magic ++ s.flatMap specFragment ++ [a, b, c, hi, lo] ++ payload) =
      some { patches := s,
             err := if [a, b, c] = eofMarker ∧ payload = [] then none
                    else some (wrapRead
                      (if payload = [] then GoError.EOF else GoError.ErrUnexpectedEOF)) } := by
  have hd : ∀ p ∈ s, p.Decodable := fun p hp => WellFormed.decodable p (hs p hp)
  have e0 : magic ++ s.flatMap specFragment ++ [a, b, c, hi, lo] ++ payload =
      magic ++ (s.flatMap Patch.wire ++ a :: b :: c :: hi :: lo :: payload) := by
    rw [flatMap_wire_eq_spec s hd]; simp
  rw [e0, parseFile_magic]
  obtain ⟨bf2, fuel2, hlt, heq⟩ := parseLoop_wire_append s hd
    (a :: b :: c :: hi :: lo :: payload) ⟨0, 0, 0, 0⟩
    ((magic ++ (s.flatMap Patch.wire ++ a :: b :: c :: hi :: lo :: payload)).length + 1)
    (by simp only [List.length_append]; omega)
  rw [heq]
  cases fuel2 with
  | zero => simp at hlt
  | succ f =>
    have hb := loopBody_truncated a b c hi lo payload bf2 hne hl
    rw [parseLoop_stop f _ _ (by rw [hb])]
    simp only [hb, Option.map_some', Option.toList, List.append_nil, Uint32_eq_eof_bytes]
    by_cases hp : payload = [] <;> simp [hp]

/-- A literal record at 0x000100 that announces four payload bytes and brings one, after a
complete run-length record: the patch of the complete record is sent and an error reported. -/
theorem truncated_payload_witness :
    (∀ p ∈ [Patch.rlepatch 0x15 14 7], p.WellFormed) ∧ Uint16 0x00 0x04 ≠ 0 ∧
      [(0x01 : Byte)].length < Uint16 0x00 0x04 ∧
      parseFile (magic ++ [Patch.rlepatch 0x15 14 7].flatMap specFragment ++
          [0x00, 0x01, 0x00, 0x00, 0x04] ++ [0x01]) =
        some { patches := [Patch.rlepatch 0x15 14 7],
               err := some (wrapRead GoError.ErrUnexpectedEOF) } :=
  ⟨by simp [Patch.WellFormed], by decide, by decide,
   (truncated_payload [Patch.rlepatch 0x15 14 7] (by simp [Patch.WellFormed])
      0x00 0x01 0x00 0x00 0x04 [0x01] (by decide) (by decide)).trans (by decide)⟩

/-- C7, refuted as stated: the record with offset 0x000001, length field 0x0000, run-length
field 0x0000 and fill 0xAA, between "PATCH" and "EOF", is sent as a run-length patch of
length zero, and no error is reported. -/
theorem zero_length_rle_counterexample :
    parseFile (magic ++ [0x00, 0x00, 0x01, 0x00, 0x00, 0x00, 0x00, 0xAA] ++ eofMarker) =
      some { patches := [Patch.rlepatch 0x000001 0 0xAA], err := none } := by
  decide

/-- C7, amended: every run-length patch the decoder sends has a length of at most 65535; the
length is not checked against zero, and a record whose length field and run-length field are
both 0x0000 is sent as a run-length patch of length zero. -/
theorem rle_length_unchecked (b : List Byte) (res : Result) (h : parseFile b = some res)
    (location length : Nat) (value : Byte)
    (hm : Patch.rlepatch location length value ∈ res.patches) :
    length ≤ 65535 ∧
      ∀ a1 a2 a3 fill : Byte,
        parseFile (magic ++ [a1, a2, a3, 0x00, 0x00, 0x00, 0x00, fill] ++ eofMarker) =
          some { patches := [Patch.rlepatch (Uint32 0 a1 a2 a3) 0 fill], err := none } := by
  constructor
  · exact ((parseFile_records b res h).1 _ hm).2
  · intro a1 a2 a3 fill
    have hd : ∀ p ∈ [Patch.rlepatch (Uint32 0 a1 a2 a3) 0 fill], p.Decodable := by
      intro p hp
      simp only [List.mem_singleton] at hp
      subst hp
      exact ⟨Uint32_lt a1 a2 a3, by omega⟩
    have he := parseFile_encode_decodable _ hd
    obtain ⟨e1, e2, e3⟩ := PutUint32_Uint32 a1 a2 a3
    have e4 : PutUint16 (0 % 65536) = [0, 0] := by decide
    rw [encode_eq] at he
    simp only [List.flatMap_cons, List.flatMap_nil, List.append_nil, wire_rlepatch, e1, e2, e3,
      e4] at he
    simpa using he

/-- The third patch of `knownIps` is a run-length patch of length 256. -/
theorem rle_length_unchecked_witness :
    parseFile knownIps =
        some { patches := [Patch.rlepatch 0x15 14 7, Patch.bytepatch [1, 2, 3, 4] 0xFE,
                 Patch.rlepatch 0x100 256 0xFE],
               err := none } ∧
      256 ≤ 65535 :=
  ⟨by decide,
   (rle_length_unchecked knownIps
      { patches := [Patch.rlepatch 0x15 14 7, Patch.bytepatch [1, 2, 3, 4] 0xFE,
          Patch.rlepatch 0x100 256 0xFE],
        err := none }
      (by decide) 0x100 256 0xFE (by decide)).1⟩

/-- C8: whatever the stream, every patch the decoder sends has a location of at most
2^24-1, and every literal patch it sends carries at least 1 and at most 65535 bytes, as many
as the 2-byte length field of its record says: the stream is "PATCH", the records of the
patches sent before, the three offset bytes, the two length bytes and then the payload. -/
theorem decoder_output_invariant (b : List Byte) (res : Result) (h : parseFile b = some res)
    (before after : List Patch) (p : Patch) (hp : res.patches = before ++ p :: after) :
    p.location ≤ 2 ^ 24 - 1 ∧
      ∀ values location, p = Patch.bytepatch values location →
        1 ≤ values.length ∧ values.length ≤ 65535 ∧
        ∃ a1 a2 a3 hi lo post,
          b = magic ++ before.flatMap Patch.wire ++ [a1, a2, a3, hi, lo] ++ values ++ post ∧
          Uint32 0 a1 a2 a3 = location ∧ Uint16 hi lo = values.length := by
  obtain ⟨hall, hr⟩ := parseFile_records b res h
  have hmem : p ∈ res.patches := by rw [hp]; simp
  have hd := hall p hmem
  constructor
  · cases p with
    | bytepatch values location => exact hd.1
    | rlepatch location length value => exact hd.1
  · intro values location hpe
    subst hpe
    obtain ⟨h1, h2, h3⟩ := hd
    refine ⟨h2, h3, ?_⟩
    rcases hr with hr | ⟨tail, hb⟩
    · rw [hr] at hmem
      simp at hmem
    · obtain ⟨e1, e2, e3⟩ := toByte_small location (by omega)
      have e4 : values.length % 65536 = values.length := Nat.mod_eq_of_lt (by omega)
      refine ⟨toByte (location / 256 / 256), toByte (location / 256), toByte location,
        toByte (values.length / 256), toByte values.length,
        after.flatMap Patch.wire ++ tail, ?_, Uint32_PutUint32 location h1,
        Uint16_PutUint16 values.length h3⟩
      rw [hb, hp]
      simp only [List.flatMap_append, List.flatMap_cons, wire_bytepatch, e1, e2, e3, e4,
        PutUint16]
      simp

/-- The second patch of `knownIps`, the literal patch at 0x0000FE with four bytes. -/
theorem decoder_output_invariant_witness :
    parseFile knownIps =
        some { patches := [Patch.rlepatch 0x15 14 7] ++
                 Patch.bytepatch [1, 2, 3, 4] 0xFE :: [Patch.rlepatch 0x100 256 0xFE],
               err := none } ∧
      (Patch.bytepatch [1, 2, 3, 4] 0xFE).location ≤ 2 ^ 24 - 1 :=
  ⟨by decide,
   (decoder_output_invariant knownIps
      { patches := [Patch.rlepatch 0x15 14 7] ++
          Patch.bytepatch [1, 2, 3, 4] 0xFE :: [Patch.rlepatch 0x100 256 0xFE],
        err := none }
      (by decide) [Patch.rlepatch 0x15 14 7] [Patch.rlepatch 0x100 256 0xFE]
      (Patch.bytepatch [1, 2, 3, 4] 0xFE) rfl).1⟩

/-- C9, refuted as stated: decoding `knownIps` does not give two patches of which the first
is a literal patch at 0x000015 with the payload 00 00 FE 00 04 01 02 03 04. -/
theorem knownIps_counterexample :
    ¬ ∃ second err,
        parseFile knownIps =
          some { patches := [Patch.bytepatch [0x00, 0x00, 0xFE, 0x00, 0x04, 0x01, 0x02, 0x03,
                   0x04] 0x000015, second],
                 err := err } := by
  have h : parseFile knownIps =
      some { patches := [Patch.rlepatch 0x15 14 7, Patch.bytepatch [1, 2, 3, 4] 0xFE,
               Patch.rlepatch 0x100 256 0xFE],
             err := none } := by decide
  rintro ⟨second, err, h2⟩
  rw [h] at h2
  simp at h2

/-- C9, amended: decoding `knownIps` yields exactly three patches, a run-length patch at
0x000015 of length 14 with fill 0x07, a literal patch at 0x0000FE with the payload
01 02 03 04, and a run-length patch at 0x000100 of length 256 with fill 0xFE, and ends
without an error. -/
theorem knownIps_decoded :
    parseFile knownIps =
      some { patches := [Patch.rlepatch 0x000015 14 0x07,
               Patch.bytepatch [0x01, 0x02, 0x03, 0x04] 0x0000FE,
               Patch.rlepatch 0x000100 256 0xFE],
             err := none } := by
  decide

/-- C10: decoding the eight bytes "PATCH", "EOF" sends no patch and ends without an error. -/
theorem empty_patch_file :
    parseFile (magic ++ eofMarker) = some { patches := [], err := none } ∧
      (magic ++ eofMarker).length = 8 := by
  decide

/-! ## Sizes of the records -/

theorem wire_length_ge (p : Patch) (h : p.Decodable) : 6 ≤ p.wire.length := by
  cases p with
  | bytepatch values location =>
    obtain ⟨_, h2, _⟩ := h
    rw [wire_bytepatch]
    simp [PutUint16]
    omega
  | rlepatch location length value =>
    rw [wire_rlepatch]
    simp [PutUint16]

theorem flatMap_wire_length (s : List Patch) (hs : ∀ p ∈ s, p.Decodable) :
    6 * s.length ≤ (s.flatMap Patch.wire).length := by
  induction s with
  | nil => simp
  | cons p ps ih =>
    have h1 := wire_length_ge p (hs p (List.mem_cons_self _ _))
    have h2 := ih (fun q hq => hs q (List.mem_cons_of_mem _ hq))
    simp only [List.flatMap_cons, List.length_append, List.length_cons]
    omega

/-- C16: the decoder returns on every stream; on a stream of n bytes it sends at most
(n - 5) / 6 patches when n is at least 5 and none otherwise, the stream being "PATCH", then
one record of at least six bytes for each patch sent, then whatever is left. -/
theorem decoder_halts_bounded (b : List Byte) :
    ∃ res, parseFile b = some res ∧ res.patches.length ≤ (b.length - 5) / 6 ∧
      (b.length < 5 → res.patches = []) ∧
      (res.patches ≠ [] →
        ∃ tail, b = magic ++ res.patches.flatMap Patch.wire ++ tail ∧
          ∀ p ∈ res.patches, 6 ≤ p.wire.length) := by
  obtain ⟨res, h⟩ := parseFile_total b
  obtain ⟨hall, hr⟩ := parseFile_records b res h
  have hlen := flatMap_wire_length res.patches hall
  have hb : res.patches.length ≤ (b.length - 5) / 6 := by
    rcases hr with hr | ⟨tail, hb⟩
    · rw [hr]; simp
    · have := congrArg List.length hb
      simp only [List.length_append] at this
      have hm : magic.length = 5 := rfl
      rw [Nat.le_div_iff_mul_le (by decide)]
      omega
  refine ⟨res, h, hb, ?_, ?_⟩
  · intro h5
    have h0 : (b.length - 5) / 6 = 0 := by
      have : b.length - 5 = 0 := by omega
      rw [this]
    rw [h0] at hb
    exact List.length_eq_zero.mp (Nat.le_zero.mp hb)
  · intro hne
    rcases hr with hr | ⟨tail, hb2⟩
    · rw [hr] at hne; simp at hne
    · exact ⟨tail, hb2, fun p hp => wire_length_ge p (hall p hp)⟩

/-- C13: on every target, applying the run-length patch {location, n, v} gives the same
state and the same error as applying the literal patch at that location whose payload is
n copies of v. -/
theorem rle_apply_eq_literal_apply {σ : Type}
    (WriteAt : σ → List Byte → Nat → σ × Option GoError) (ws : σ)
    (location n : Nat) (v : Byte) :
    (NewRlePatch location n v).ApplyTo WriteAt ws =
      (NewBytePatch location (List.replicate n v)).ApplyTo WriteAt ws := by
  rfl

/-! ## The channel loop and the slice loop -/

theorem chanLoop_eq_writeLoop (s : List Patch) :
    ∀ w : Writer, (chanLoop s w).1 = writeLoop s w := by
  induction s with
  | nil => intro w; rfl
  | cons p ps ih =>
    intro w
    simp only [chanLoop, writeLoop]
    by_cases h : (p.writeIps w).2 = none
    · simp only [h, ne_eq, not_true_eq_false, if_false]
      exact ih _
    · simp only [h, ne_eq, not_false_eq_true, if_true]

theorem WriteIpsChan_eq_WriteIpsSlice (s : List Patch) (w : Writer) :
    (WriteIpsChan w { pending := s }).1 = WriteIpsSlice w s := by
  simp only [WriteIpsChan, WriteIpsSlice, chanLoop_eq_writeLoop]

/-! ## Fields of a fragment -/

theorem wire_bytepatch_fields (loc : Nat) (v : List Byte) :
    ∃ a b c hi lo, (Patch.bytepatch v loc).wire = [a, b, c, hi, lo] ++ v ∧
      Uint32 0 a b c = loc % 2 ^ 24 ∧ Uint16 hi lo = v.length % 2 ^ 16 := by
  refine ⟨_, _, _, _, _, by rw [wire_bytepatch]; rfl, ?_, ?_⟩
  · simp only [Uint32, toByte, Fin.val_zero]
    omega
  · simp only [Uint16, toByte]
    omega

theorem wire_rlepatch_fields (loc n : Nat) (fill : Byte) :
    ∃ a b c hi lo, (Patch.rlepatch loc n fill).wire = [a, b, c, 0, 0, hi, lo, fill] ∧
      Uint32 0 a b c = loc % 2 ^ 24 ∧ Uint16 hi lo = n % 2 ^ 16 := by
  refine ⟨_, _, _, _, _, by rw [wire_rlepatch]; rfl, ?_, ?_⟩
  · simp only [Uint32, toByte, Fin.val_zero]
    omega
  · simp only [Uint16, toByte]
    omega

theorem wire_location_mod (loc1 loc2 : Nat) (h : loc1 % 2 ^ 24 = loc2 % 2 ^ 24)
    (v : List Byte) (n : Nat) (fill : Byte) :
    (Patch.bytepatch v loc1).wire = (Patch.bytepatch v loc2).wire ∧
      (Patch.rlepatch loc1 n fill).wire = (Patch.rlepatch loc2 n fill).wire := by
  have e1 : toByte (loc1 % 4294967296 / 65536) = toByte (loc2 % 4294967296 / 65536) := by
    apply Fin.ext; simp only [toByte]; omega
  have e2 : toByte (loc1 % 4294967296 / 256) = toByte (loc2 % 4294967296 / 256) := by
    apply Fin.ext; simp only [toByte]; omega
  have e3 : toByte (loc1 % 4294967296) = toByte (loc2 % 4294967296) := by
    apply Fin.ext; simp only [toByte]; omega
  constructor
  · rw [wire_bytepatch, wire_bytepatch, e1, e2, e3]
  · rw [wire_rlepatch, wire_rlepatch, e1, e2, e3]

/-! ## Writing into a file that is large enough -/

theorem fileWriteAt_inside (data p : List Byte) (off : Nat)
    (h : off + p.length ≤ data.length) :
    fileWriteAt data p off = (data.take off ++ p ++ data.drop (off + p.length), none) := by
  unfold fileWriteAt
  have h0 : off - data.length = 0 := by omega
  by_cases hp : p = []
  · subst hp
    simp
  · simp [hp, h0]

theorem fileWriteAt_length (data p : List Byte) (off : Nat)
    (h : off + p.length ≤ data.length) :
    (fileWriteAt data p off).1.length = data.length := by
  rw [fileWriteAt_inside data p off h]
  simp only [List.length_append, List.length_take, List.length_drop]
  omega

theorem fileWriteAt_getElem? (data p : List Byte) (off : Nat)
    (h : off + p.length ≤ data.length) (i : Nat) :
    (fileWriteAt data p off).1[i]? =
      if off ≤ i ∧ i < off + p.length then p[i - off]? else data[i]? := by
  rw [fileWriteAt_inside data p off h]
  simp only [List.getElem?_append, List.length_append, List.length_take, List.getElem?_take,
    List.getElem?_drop]
  have hm : min off data.length = off := by omega
  rw [hm]
  by_cases h1 : i < off
  · have h2 : i < off + p.length := by omega
    have h3 : ¬ (off ≤ i ∧ i < off + p.length) := by omega
    rw [if_neg h3]
    simp only [h1, h2, if_true]
  · by_cases h2 : i < off + p.length
    · have h3 : off ≤ i ∧ i < off + p.length := by omega
      rw [if_pos h3]
      simp only [h1, h2, if_true, if_false]
    · have h3 : ¬ (off ≤ i ∧ i < off + p.length) := by omega
      have h4 : off + p.length + (i - (off + p.length)) = i := by omega
      rw [if_neg h3]
      simp only [h1, h2, if_false, h4]

theorem ApplyTo_fileWriteAt (p : Patch) (data : List Byte) :
    p.ApplyTo fileWriteAt data = ((fileWriteAt data p.payload p.location).1, none) := by
  cases p with
  | bytepatch values location =>
    have h : (fileWriteAt data values location).2 = none := by
      unfold fileWriteAt; split <;> rfl
    simp only [Patch.ApplyTo, h, Patch.payload, Patch.location]
  | rlepatch location length value =>
    have h : (fileWriteAt data (List.replicate length value) location).2 = none := by
      unfold fileWriteAt; split <;> rfl
    simp only [Patch.ApplyTo, bytesRepeat, h, Patch.payload, Patch.location]

/-- C12: applying a literal patch {location, values} to a target of at least
location + len(values) bytes succeeds and leaves a target of the same length that holds
the values at [location, location + len(values)) and its old bytes everywhere else;
{location = 10, values = [1,2,3]} on twenty zero bytes gives ten zeros, 1, 2, 3 and seven
zeros. -/
theorem literal_apply_frame (location : Nat) (values data : List Byte)
    (h : location + values.length ≤ data.length) :
    ((NewBytePatch location values).ApplyTo fileWriteAt data).2 = none ∧
      ((NewBytePatch location values).ApplyTo fileWriteAt data).1.length = data.length ∧
      (∀ i, i < values.length →
        ((NewBytePatch location values).ApplyTo fileWriteAt data).1[location + i]? =
          values[i]?) ∧
      (∀ i, i < location ∨ location + values.length ≤ i →
        ((NewBytePatch location values).ApplyTo fileWriteAt data).1[i]? = data[i]?) ∧
      ((NewBytePatch 10 [1, 2, 3]).ApplyTo fileWriteAt (List.replicate 20 0)).1 =
        List.replicate 10 0 ++ [1, 2, 3] ++ List.replicate 7 0 := by
  have ha := ApplyTo_fileWriteAt (NewBytePatch location values) data
  simp only [NewBytePatch, Patch.payload, Patch.location] at ha
  simp only [NewBytePatch] at ha ⊢
  rw [ha]
  refine ⟨rfl, fileWriteAt_length data values location h, ?_, ?_, by decide⟩
  · intro i hi
    show (fileWriteAt data values location).1[location + i]? = values[i]?
    rw [fileWriteAt_getElem? data values location h]
    have h1 : location ≤ location + i ∧ location + i < location + values.length := by omega
    rw [if_pos h1]
    congr 1
    omega
  · intro i hi
    show (fileWriteAt data values location).1[i]? = data[i]?
    rw [fileWriteAt_getElem? data values location h]
    have h1 : ¬ (location ≤ i ∧ i < location + values.length) := by omega
    rw [if_neg h1]

/-- The patch {location = 10, values = [1,2,3]} on twenty zero bytes. -/
theorem literal_apply_frame_witness :
    10 + [(1 : Byte), 2, 3].length ≤ (List.replicate 20 (0 : Byte)).length ∧
      ((NewBytePatch 10 [1, 2, 3]).ApplyTo fileWriteAt (List.replicate 20 0)).2 = none ∧
      ((NewBytePatch 10 [1, 2, 3]).ApplyTo fileWriteAt (List.replicate 20 0)).1.length =
        (List.replicate 20 (0 : Byte)).length :=
  ⟨by decide, (literal_apply_frame 10 [1, 2, 3] (List.replicate 20 0) (by decide)).1,
   (literal_apply_frame 10 [1, 2, 3] (List.replicate 20 0) (by decide)).2.1⟩

/-- C15: two patches (literal or run-length) applied to a target that holds both ranges
[location, location + length): both applications succeed; when the ranges are disjoint
the two orders leave the same target; and in either case every byte of the range of the
patch applied last, so every overlapping byte, holds the payload of that patch. -/
theorem apply_independent (p q : Patch) (data : List Byte)
    (hp : p.location + p.payload.length ≤ data.length)
    (hq : q.location + q.payload.length ≤ data.length) :
    (p.ApplyTo fileWriteAt data).2 = none ∧
      (q.ApplyTo fileWriteAt (p.ApplyTo fileWriteAt data).1).2 = none ∧
      (p.location + p.payload.length ≤ q.location ∨
          q.location + q.payload.length ≤ p.location →
        (q.ApplyTo fileWriteAt (p.ApplyTo fileWriteAt data).1).1 =
          (p.ApplyTo fileWriteAt (q.ApplyTo fileWriteAt data).1).1) ∧
      (∀ i, q.location ≤ i → i < q.location + q.payload.length →
        (q.ApplyTo fileWriteAt (p.ApplyTo fileWriteAt data).1).1[i]? =
          q.payload[i - q.location]?) := by
  simp only [ApplyTo_fileWriteAt]
  have lp := fileWriteAt_length data p.payload p.location hp
  have lq := fileWriteAt_length data q.payload q.location hq
  refine ⟨trivial, trivial, ?_, ?_⟩
  · intro hd
    apply List.ext_getElem?
    intro i
    rw [fileWriteAt_getElem? (fileWriteAt data p.payload p.location).1 q.payload q.location
        (by rw [lp]; exact hq),
      fileWriteAt_getElem? (fileWriteAt data q.payload q.location).1 p.payload p.location
        (by rw [lq]; exact hp),
      fileWriteAt_getElem? data p.payload p.location hp,
      fileWriteAt_getElem? data q.payload q.location hq]
    by_cases h1 : q.location ≤ i ∧ i < q.location + q.payload.length
    · have h2 : ¬ (p.location ≤ i ∧ i < p.location + p.payload.length) := by omega
      rw [if_pos h1, if_neg h2, if_pos h1]
    · rw [if_neg h1, if_neg h1]
  · intro i h1 h2
    rw [fileWriteAt_getElem? _ _ _ (by rw [lp]; exact hq), if_pos ⟨h1, h2⟩]

/-- A literal patch over [10, 13) and a run-length patch over [12, 16) on twenty zero
bytes: byte 12 holds the fill of the run-length patch, which is applied last. -/
theorem apply_independent_witness :
    (Patch.bytepatch [1, 2, 3] 10).location + (Patch.bytepatch [1, 2, 3] 10).payload.length ≤
        (List.replicate 20 (0 : Byte)).length ∧
      (Patch.rlepatch 12 4 9).location + (Patch.rlepatch 12 4 9).payload.length ≤
        (List.replicate 20 (0 : Byte)).length ∧
      ((Patch.rlepatch 12 4 9).ApplyTo fileWriteAt
          ((Patch.bytepatch [1, 2, 3] 10).ApplyTo fileWriteAt (List.replicate 20 0)).1).1[12]? =
        (Patch.rlepatch 12 4 9).payload[12 - (Patch.rlepatch 12 4 9).location]? :=
  ⟨by decide, by decide,
   (apply_independent (Patch.bytepatch [1, 2, 3] 10) (Patch.rlepatch 12 4 9)
      (List.replicate 20 0) (by decide) (by decide)).2.2.2 12 (by decide) (by decide)⟩

/-! ## Decoding a stream that was cut short -/

theorem wire_append_inj (p q : Patch) (hp : p.Decodable) (hq : q.Decodable)
    (r1 r2 : List Byte) (h : p.wire ++ r1 = q.wire ++ r2) : p = q ∧ r1 = r2 := by
  obtain ⟨b1, e1⟩ := loopBody_wire p hp r1 ⟨0, 0, 0, 0⟩
  obtain ⟨b2, e2⟩ := loopBody_wire q hq r2 ⟨0, 0, 0, 0⟩
  rw [h, e2] at e1
  simp only [Prod.mk.injEq, Option.some.injEq, Reader.mk.injEq] at e1
  exact ⟨e1.2.1.symm, e1.2.2.1.symm⟩

/-- A pass that ends with `err` set sends nothing, and the loop returns. -/
theorem parseLoop_no_patch (f : Nat) (ips : List Byte) (bf : Buff)
    (h : (loopBody ⟨ips, none, bf⟩).2.2.err ≠ none ∧ (loopBody ⟨ips, none, bf⟩).2.1 = none) :
    ∃ err, parseLoop (f + 1) ⟨ips, none, bf⟩ = some { patches := [], err := err } := by
  obtain ⟨e, he⟩ := Option.ne_none_iff_exists'.mp h.1
  rw [parseLoop_stop f _ e he, h.2]
  exact ⟨_, rfl⟩

/-- No patch is sent for a record of which the last bytes are missing. -/
theorem loopBody_cut (p : Patch) (hp : p.Decodable) (t u : List Byte) (hu : u ≠ [])
    (h : p.wire = t ++ u) (bf : Buff) :
    (loopBody ⟨t, none, bf⟩).2.2.err ≠ none ∧ (loopBody ⟨t, none, bf⟩).2.1 = none := by
  rcases loopBody_cases t bf with hc | ⟨q, _, _, hq, ht⟩
  · exact hc
  · exfalso
    have h2 : p.wire ++ [] = q.wire ++ ((loopBody ⟨t, none, bf⟩).2.2.ips ++ u) := by
      rw [List.append_nil, h, ← List.append_assoc, ← ht]
    have h3 := (wire_append_inj p q hp hq _ _ h2).2
    have h4 := congrArg List.length h3
    simp only [List.length_nil, List.length_append] at h4
    have h5 : 0 < u.length := List.length_pos.mpr hu
    omega

/-- No patch is sent when fewer than six bytes are left. -/
theorem loopBody_few (t : List Byte) (ht : t.length < 6) (bf : Buff) :
    (loopBody ⟨t, none, bf⟩).2.2.err ≠ none ∧ (loopBody ⟨t, none, bf⟩).2.1 = none := by
  rcases loopBody_cases t bf with hc | ⟨q, _, _, hq, hw⟩
  · exact hc
  · exfalso
    have h1 := wire_length_ge q hq
    have h2 := congrArg List.length hw
    simp only [List.length_append] at h2
    omega

theorem parseLoop_take (s : List Patch) (hs : ∀ p ∈ s, p.Decodable) :
    ∀ (n : Nat) (bf : Buff) (fuel : Nat),
      ((s.flatMap Patch.wire ++ eofMarker).take n).length < fuel →
      ∃ sent rest err, s = sent ++ rest ∧
        parseLoop fuel ⟨(s.flatMap Patch.wire ++ eofMarker).take n, none, bf⟩ =
          some { patches := sent, err := err } ∧
        (sent.flatMap Patch.wire).length ≤ n ∧
        ∀ p rest2, rest = p :: rest2 →
          n < (sent.flatMap Patch.wire).length + p.wire.length := by
  induction s with
  | nil =>
    intro n bf fuel hf
    cases fuel with
    | zero => simp at hf
    | succ f =>
      have hl : ((([] : List Patch).flatMap Patch.wire ++ eofMarker).take n).length < 6 := by
        have : eofMarker.length = 3 := rfl
        simp only [List.flatMap_nil, List.nil_append, List.length_take]
        omega
      obtain ⟨err, he⟩ := parseLoop_no_patch f _ bf (loopBody_few _ hl bf)
      exact ⟨[], [], err, rfl, he, by simp, by intro p rest2 h; cases h⟩
  | cons p ps ih =>
    intro n bf fuel hf
    have hp : p.Decodable := hs p (List.mem_cons_self _ _)
    have hps : ∀ q ∈ ps, q.Decodable := fun q hq => hs q (List.mem_cons_of_mem _ hq)
    have hpos := wire_length_pos p
    have e0 : (p :: ps).flatMap Patch.wire ++ eofMarker
        = p.wire ++ (ps.flatMap Patch.wire ++ eofMarker) := by simp
    rw [e0] at hf ⊢
    cases fuel with
    | zero => simp at hf
    | succ f =>
      by_cases hn : p.wire.length ≤ n
      · have e1 : (p.wire ++ (ps.flatMap Patch.wire ++ eofMarker)).take n =
            p.wire ++ (ps.flatMap Patch.wire ++ eofMarker).take (n - p.wire.length) := by
          rw [List.take_append_eq_append_take, List.take_of_length_le hn]
        obtain ⟨bf1, hb⟩ := loopBody_wire p hp
          ((ps.flatMap Patch.wire ++ eofMarker).take (n - p.wire.length)) bf
        have hf2 : ((ps.flatMap Patch.wire ++ eofMarker).take (n - p.wire.length)).length
            < f := by
          rw [e1] at hf
          simp only [List.length_append] at hf
          omega
        obtain ⟨sent, rest, err, hsr, hpl, hle, hnext⟩ :=
          ih hps (n - p.wire.length) bf1 f hf2
        refine ⟨p :: sent, rest, err, by rw [hsr]; rfl, ?_, ?_, ?_⟩
        · rw [e1, parseLoop_continue f _ (by rw [hb]), hb]
          simp only [hpl, Option.map_some', Option.toList, List.singleton_append]
        · simp only [List.flatMap_cons, List.length_append]
          omega
        · intro q rest2 hq
          have := hnext q rest2 hq
          simp only [List.flatMap_cons, List.length_append]
          omega
      · have e1 : (p.wire ++ (ps.flatMap Patch.wire ++ eofMarker)).take n = p.wire.take n := by
          have h0 : n - p.wire.length = 0 := by omega
          rw [List.take_append_eq_append_take, h0, List.take_zero, List.append_nil]
        have hu : p.wire.drop n ≠ [] := by
          intro hd
          have := congrArg List.length hd
          simp only [List.length_drop, List.length_nil] at this
          omega
        obtain ⟨err, he⟩ := parseLoop_no_patch f _ bf
          (loopBody_cut p hp (p.wire.take n) (p.wire.drop n) hu
            (List.take_append_drop n p.wire).symm bf)
        refine ⟨[], p :: ps, err, rfl, by rw [e1]; exact he, by simp, ?_⟩
        intro q rest2 hq
        simp only [List.cons.injEq] at hq
        rw [← hq.1]
        simp only [List.flatMap_nil, List.length_nil]
        omega

/-- C11: decoding the first k bytes (5 <= k) of what the encoder wrote for well-formed
patches sends a leading part of the sequence, in the original order: exactly the patches
whose records lie entirely within the first k bytes, and no patch for the record that is
cut. -/
theorem truncated_emission (s : List Patch) (hs : ∀ p ∈ s, p.WellFormed) (k : Nat)
    (h5 : 5 ≤ k) :
    ∃ sent rest err, s = sent ++ rest ∧
      parseFile ((encode s).take k) = some { patches := sent, err := err } ∧
      5 + (sent.flatMap specFragment).length ≤ k ∧
      ∀ p rest2, rest = p :: rest2 →
        k < 5 + (sent.flatMap specFragment).length + (specFragment p).length := by
  have hd : ∀ p ∈ s, p.Decodable := fun p hp => WellFormed.decodable p (hs p hp)
  have hm : magic.length = 5 := rfl
  have e1 : (encode s).take k =
      magic ++ (s.flatMap Patch.wire ++ eofMarker).take (k - 5) := by
    rw [encode_eq, List.append_assoc, List.take_append_eq_append_take,
      List.take_of_length_le (by omega), hm]
  rw [e1, parseFile_magic]
  obtain ⟨sent, rest, err, hsr, hpl, hle, hnext⟩ := parseLoop_take s hd (k - 5) ⟨0, 0, 0, 0⟩
    ((magic ++ (s.flatMap Patch.wire ++ eofMarker).take (k - 5)).length + 1)
    (by simp only [List.length_append]; omega)
  have hsent : ∀ p ∈ sent, p.Decodable := by
    intro p hp
    exact hd p (by rw [hsr]; exact List.mem_append_left _ hp)
  refine ⟨sent, rest, err, hsr, hpl, ?_, ?_⟩
  · rw [← flatMap_wire_eq_spec sent hsent]
    omega
  · intro p rest2 hr
    have hp : p.Decodable := hd p (by rw [hsr, hr]; simp)
    rw [← flatMap_wire_eq_spec sent hsent, ← wire_eq_specFragment p hp]
    have := hnext p rest2 hr
    omega

/-- The encoder's output for a literal and a run-length patch, cut after 15 bytes: the
literal record (8 bytes) lies within them, the run-length record does not. -/
theorem truncated_emission_witness :
    (∀ p ∈ [Patch.bytepatch [1, 2, 3] 0x10, Patch.rlepatch 0x20 4 9], p.WellFormed) ∧
      5 ≤ 15 ∧
      15 ≤ (encode [Patch.bytepatch [1, 2, 3] 0x10, Patch.rlepatch 0x20 4 9]).length ∧
      ∃ sent rest err,
        [Patch.bytepatch [1, 2, 3] 0x10, Patch.rlepatch 0x20 4 9] = sent ++ rest ∧
        parseFile ((encode [Patch.bytepatch [1, 2, 3] 0x10, Patch.rlepatch 0x20 4 9]).take 15)
          = some { patches := sent, err := err } ∧
        5 + (sent.flatMap specFragment).length ≤ 15 ∧
        ∀ p rest2, rest = p :: rest2 →
          15 < 5 + (sent.flatMap specFragment).length + (specFragment p).length :=
  ⟨by simp [Patch.WellFormed], by decide, by decide,
   truncated_emission _ (by simp [Patch.WellFormed]) 15 (by decide)⟩

/-! ## What the encoder does when a write fails -/

theorem Write_fst (w : Writer) (c : List Byte) : (w.Write c).1 = w.after [c] := rfl

theorem after_after (w : Writer) (cs ds : List (List Byte)) :
    (w.after cs).after ds = w.after (cs ++ ds) := by
  simp [Writer.after]

theorem after_nil (w : Writer) : w.after [] = w := by
  simp [Writer.after]

theorem results_append (cs : List (List Byte)) :
    ∀ (w : Writer) (ds : List (List Byte)),
      w.results (cs ++ ds) = w.results cs ++ (w.after cs).results ds := by
  induction cs with
  | nil => intro w ds; simp [Writer.results, after_nil]
  | cons c cs ih =>
    intro w ds
    show (w.Write c).2 :: (w.Write c).1.results (cs ++ ds) =
      ((w.Write c).2 :: (w.Write c).1.results cs) ++ (w.after (c :: cs)).results ds
    rw [ih, Write_fst, after_after]
    rfl

theorem errsFirst_replicate (msg : String) (n : Nat) (tl : List (Option GoError)) :
    errsFirst msg (List.replicate n none ++ tl) = errsFirst msg tl := by
  induction n with
  | zero => simp
  | succ n ih => simpa [List.replicate_succ, errsFirst] using ih

/-- The writes of one `writeIps`: an initial part of the buffers of the patch; either all
of them, every one written successfully, or up to the first one that fails. -/
theorem writeIps_trace (p : Patch) (w : Writer) :
    ∃ cs rest, (p.writeIps w).1 = w.after cs ∧ p.writes = cs ++ rest ∧
      (((p.writeIps w).2 = none ∧ rest = [] ∧
          w.results cs = List.replicate cs.length none) ∨
        ∃ e pre c, (p.writeIps w).2 = some e ∧ cs = pre ++ [c] ∧
          w.results cs = List.replicate pre.length none ++ [some e]) := by
  cases p with
  | bytepatch values location =>
    generalize hf : (PutUint32 (location % 4294967296) ++
      PutUint16 (values.length % 65536)).drop 1 = front
    have hw : (Patch.bytepatch values location).writes = [front, values] := by
      simp only [Patch.writes, Patch.writeIps, hf]
      simp [Writer.Write, bytesBuffer]
    cases h1 : w.outcome w.calls front with
    | some e =>
      refine ⟨[front], [values], ?_, by rw [hw]; rfl, Or.inr ⟨e, [], front, ?_, rfl, ?_⟩⟩
      · simp only [Patch.writeIps, hf]
        simp [Writer.Write, h1, Writer.after]
      · simp only [Patch.writeIps, hf]
        simp [Writer.Write, h1]
      · simp [Writer.results, Writer.Write, h1]
    | none =>
      cases h2 : w.outcome (w.calls ++ [front]) values with
      | some e =>
        refine ⟨[front, values], [], ?_, by rw [hw]; rfl,
          Or.inr ⟨e, [front], values, ?_, rfl, ?_⟩⟩
        · simp only [Patch.writeIps, hf]
          simp [Writer.Write, h1, Writer.after]
        · simp only [Patch.writeIps, hf]
          simp [Writer.Write, h1, h2]
        · simp [Writer.results, Writer.Write, h1, h2]
      | none =>
        refine ⟨[front, values], [], ?_, by rw [hw]; rfl, Or.inl ⟨?_, rfl, ?_⟩⟩
        · simp only [Patch.writeIps, hf]
          simp [Writer.Write, h1, Writer.after]
        · simp only [Patch.writeIps, hf]
          simp [Writer.Write, h1, h2]
        · simp [Writer.results, Writer.Write, h1, h2, List.replicate]
  | rlepatch location length value =>
    generalize hf : (PutUint32 (location % 4294967296) ++ [0, 0] ++
      PutUint16 (length % 65536) ++ [value]).drop 1 = front
    have hw : (Patch.rlepatch location length value).writes = [front] := by
      simp only [Patch.writes, Patch.writeIps, hf]
      simp [Writer.Write, bytesBuffer]
    cases h1 : w.outcome w.calls front with
    | some e =>
      refine ⟨[front], [], ?_, by rw [hw]; rfl, Or.inr ⟨e, [], front, ?_, rfl, ?_⟩⟩
      · simp only [Patch.writeIps, hf]
        simp [Writer.Write, Writer.after]
      · simp only [Patch.writeIps, hf]
        simp [Writer.Write, h1]
      · simp [Writer.results, Writer.Write, h1]
    | none =>
      refine ⟨[front], [], ?_, by rw [hw]; rfl, Or.inl ⟨?_, rfl, ?_⟩⟩
      · simp only [Patch.writeIps, hf]
        simp [Writer.Write, Writer.after]
      · simp only [Patch.writeIps, hf]
        simp [Writer.Write, h1]
      · simp [Writer.results, Writer.Write, h1, List.replicate]

/-- The writes of the patch loop: an initial part of the buffers of all patches; either
all of them, every one written successfully, or up to the first one that fails. -/
theorem writeLoop_trace (s : List Patch) :
    ∀ w : Writer, ∃ cs rest, (writeLoop s w).1 = w.after cs ∧
      s.flatMap Patch.writes = cs ++ rest ∧
      (((writeLoop s w).2 = none ∧ rest = [] ∧
          w.results cs = List.replicate cs.length none) ∨
        ∃ e pre c, (writeLoop s w).2 = some e ∧ cs = pre ++ [c] ∧
          w.results cs = List.replicate pre.length none ++ [some e]) := by
  induction s with
  | nil =>
    intro w
    exact ⟨[], [], (after_nil w).symm, rfl, Or.inl ⟨rfl, rfl, rfl⟩⟩
  | cons p ps ih =>
    intro w
    obtain ⟨cs1, rest1, h1, h2, h3⟩ := writeIps_trace p w
    rcases h3 with ⟨hn, hr, hres⟩ | ⟨e, pre, c, he, hcs, hres⟩
    · obtain ⟨cs2, rest2, g1, g2, g3⟩ := ih (w.after cs1)
      subst hr
      have hl : writeLoop (p :: ps) w = writeLoop ps (w.after cs1) := by
        simp only [writeLoop, hn, ne_eq, not_true_eq_false, if_false, h1]
      refine ⟨cs1 ++ cs2, rest2, ?_, ?_, ?_⟩
      · rw [hl, g1, after_after]
      · simp only [List.flatMap_cons, h2, g2, List.append_nil, List.append_assoc]
      · rw [hl, results_append, hres]
        rcases g3 with ⟨gn, gr, gres⟩ | ⟨e, pre, c, ge, gcs, gres⟩
        · left
          refine ⟨gn, gr, ?_⟩
          rw [gres, List.length_append, List.replicate_add]
        · right
          refine ⟨e, cs1 ++ pre, c, ge, by rw [gcs, List.append_assoc], ?_⟩
          rw [gres, List.length_append, List.replicate_add, List.append_assoc]
    · have hl : writeLoop (p :: ps) w = (w.after cs1, some e) := by
        simp only [writeLoop, h1, he]
        rw [if_pos (by simp)]
      refine ⟨cs1, rest1 ++ ps.flatMap Patch.writes, ?_, ?_, Or.inr ⟨e, pre, c, ?_, hcs, hres⟩⟩
      · rw [hl]
      · simp only [List.flatMap_cons, h2, List.append_assoc]
      · rw [hl]

theorem errsFirst_eq_none (msg : String) (l : List (Option GoError)) :
    errsFirst msg l = none ↔ ∀ e ∈ l, e = none := by
  induction l with
  | nil => simp [errsFirst]
  | cons a l ih =>
    cases a with
    | none => simp [errsFirst, ih]
    | some e => simp [errsFirst]

/-- C14, refuted as stated: on a writer whose first `Write` (the one of "PATCH") fails and
whose later calls succeed, `WriteIpsSlice` still writes the fragment of the patch, after the
failing write. -/
theorem write_failure_counterexample :
    (flakyWriter.Write magic).2 = some (GoError.other "write failed") ∧
      (WriteIpsSlice flakyWriter [Patch.rlepatch 0x10 2 7]).1.calls =
        [magic, [0x00, 0x00, 0x10, 0x00, 0x00, 0x00, 0x02, 0x07], eofMarker] ∧
      (WriteIpsSlice flakyWriter [Patch.rlepatch 0x10 2 7]).2 =
        some (GoError.wrap "Formatting as IPS: " (GoError.other "write failed")) := by
  decide

/-- C14, amended: `WriteIpsSlice` (and `WriteIpsChan`, which does the same) writes "PATCH",
then an initial part of the buffers of the fragments, then "EOF", whatever fails. Of the
fragment writes only the last one made can have failed, and they stop short of the whole
sequence only at a write that failed: after a failing fragment write nothing more of any
fragment is written, while a failure of the write of "PATCH" does not stop the fragments
from being written. The error returned is nil when every write succeeded, and otherwise
wraps the error of the first write that failed. -/
theorem write_failure_handling (w : Writer) (s : List Patch) :
    ∃ mid rest,
      (WriteIpsSlice w s).1 = w.after (magic :: (mid ++ [eofMarker])) ∧
      (WriteIpsChan w { pending := s }).1 = WriteIpsSlice w s ∧
      s.flatMap Patch.writes = mid ++ rest ∧
      (∀ e ∈ ((w.after [magic]).results mid).dropLast, e = none) ∧
      (rest ≠ [] → ∃ e, ((w.after [magic]).results mid).getLast? = some (some e)) ∧
      (WriteIpsSlice w s).2 =
        errsFirst "Formatting as IPS: " (w.results (magic :: (mid ++ [eofMarker]))) ∧
      ((WriteIpsSlice w s).2 = none ↔
        ∀ e ∈ w.results (magic :: (mid ++ [eofMarker])), e = none) := by
  obtain ⟨cs, rest, g1, g2, g3⟩ := writeLoop_trace s (w.after [magic])
  have hr : w.results (magic :: (cs ++ [eofMarker])) =
      (w.Write magic).2 :: ((w.after [magic]).results cs ++
        [((w.after ([magic] ++ cs)).Write eofMarker).2]) := by
    show (w.Write magic).2 :: (w.Write magic).1.results (cs ++ [eofMarker]) = _
    rw [Write_fst, results_append, after_after]
    rfl
  have hw : (WriteIpsSlice w s).1 = w.after (magic :: (cs ++ [eofMarker])) := by
    simp only [WriteIpsSlice, Write_fst, g1, after_after]
    rfl
  have he : (WriteIpsSlice w s).2 =
      errsFirst "Formatting as IPS: " (w.results (magic :: (cs ++ [eofMarker]))) := by
    rw [hr]
    simp only [WriteIpsSlice, Write_fst, g1, after_after]
    rcases g3 with ⟨gn, _, gres⟩ | ⟨e, pre, c, ge, _, gres⟩
    · rw [gn, gres]
      cases (w.Write magic).2 with
      | some e1 => rfl
      | none =>
        simp only [errsFirst]
        rw [errsFirst_replicate]
    · rw [ge, gres]
      cases (w.Write magic).2 with
      | some e1 => rfl
      | none =>
        simp only [errsFirst]
        rw [List.append_assoc, errsFirst_replicate]
        rfl
  refine ⟨cs, rest, hw, WriteIpsChan_eq_WriteIpsSlice s w, g2, ?_, ?_, he, ?_⟩
  · rcases g3 with ⟨_, _, gres⟩ | ⟨e, pre, c, _, _, gres⟩
    · rw [gres]
      intro e he
      simp only [List.dropLast_replicate, List.mem_replicate] at he
      exact he.2
    · rw [gres]
      intro e he
      simp only [List.dropLast_concat, List.mem_replicate] at he
      exact he.2
  · intro hne
    rcases g3 with ⟨_, gr, _⟩ | ⟨e, pre, c, _, _, gres⟩
    · exact absurd gr hne
    · exact ⟨e, by rw [gres, List.getLast?_concat]⟩
  · rw [he]
    exact errsFirst_eq_none _ _

/-- C17: for every writer and every sequence of patches, `WriteIpsChan` on a channel that
delivers the sequence in order and is then closed leaves the writer as `WriteIpsSlice` on
the sequence does (the same calls of `Write`, in order) and returns the same error. -/
theorem WriteIpsChan_agrees (w : Writer) (s : List Patch) :
    (WriteIpsChan w { pending := s }).1.1 = (WriteIpsSlice w s).1 ∧
      (WriteIpsChan w { pending := s }).1.1.calls = (WriteIpsSlice w s).1.calls ∧
      (WriteIpsChan w { pending := s }).1.2 = (WriteIpsSlice w s).2 := by
  rw [WriteIpsChan_eq_WriteIpsSlice]
  exact ⟨rfl, rfl, rfl⟩

/-- C18, refuted as stated: a literal patch with an empty payload is written as five
bytes whose length field, 0x0000, equals the length of its payload. -/
theorem empty_payload_counterexample :
    (NewBytePatch 0x123456 []).wire = [0x12, 0x34, 0x56, 0x00, 0x00] ∧
      Uint16 0x00 0x00 = ([] : List Byte).length := by
  decide

/-- C18, amended: whatever the location and the payload given to `NewBytePatch`, the
fragment written is three bytes with the big-endian value loc mod 2^24, two bytes with the
big-endian value len(v) mod 2^16, and all bytes of v; the fragment of a run-length patch
carries loc mod 2^24 in the same way. So locations that agree modulo 2^24 give the same
fragment, a payload of more than 65535 bytes is written with a length field that differs
from its length, and an empty payload is written with the length field 0x0000, which equals
its length. -/
theorem encoder_field_truncation (loc : Nat) (v : List Byte) (n : Nat) (fill : Byte) :
    (∃ a b c hi lo, (NewBytePatch loc v).wire = [a, b, c, hi, lo] ++ v ∧
        Uint32 0 a b c = loc % 2 ^ 24 ∧ Uint16 hi lo = v.length % 2 ^ 16 ∧
        (65535 < v.length → Uint16 hi lo ≠ v.length) ∧
        (v = [] → Uint16 hi lo = v.length)) ∧
      (∃ a b c hi lo, (NewRlePatch loc n fill).wire = [a, b, c, 0, 0, hi, lo, fill] ∧
        Uint32 0 a b c = loc % 2 ^ 24 ∧ Uint16 hi lo = n % 2 ^ 16) ∧
      (∀ loc2, loc2 % 2 ^ 24 = loc % 2 ^ 24 →
        (NewBytePatch loc2 v).wire = (NewBytePatch loc v).wire ∧
        (NewRlePatch loc2 n fill).wire = (NewRlePatch loc n fill).wire) := by
  refine ⟨?_, wire_rlepatch_fields loc n fill, fun loc2 h => wire_location_mod loc2 loc h v n fill⟩
  obtain ⟨a, b, c, hi, lo, h1, h2, h3⟩ := wire_bytepatch_fields loc v
  refine ⟨a, b, c, hi, lo, h1, h2, h3, ?_, ?_⟩
  · intro hv
    rw [h3]
    omega
  · intro hv
    rw [h3, hv]
    rfl

end Ips
